import Mathlib

/-!
Shallow embedding of the vscode-labeled-bookmarks core (src/bookmark.ts,
src/serializable_bookmark.ts, src/main.ts) and proofs about its
specification claims.

Modelling conventions:
* TypeScript strings are Lean `String`s; `localeCompare` is modelled as
  lexicographic comparison of the underlying character lists (the spec
  describes the canonical order as lexicographic on `filePath`).
* JavaScript `String.trim` / `startsWith` are modelled structurally over
  the character list so that they evaluate inside the kernel.
* Arrays are Lean lists; `Array.prototype.sort(cmp)` (a stable
  comparator sort) is modelled by a stable insertion sort `jsSort`.
* Line and character numbers are `Nat` (they are non-negative 0-based
  indices in the source); the only subtraction performed by the code
  (`bookmark.lineNumber -= shiftUpBy`) happens under a guard
  `lineNumber >= shiftFromLine = deleteFromLine + shiftUpBy`, so `Nat`
  subtraction agrees exactly with JavaScript subtraction there.
-/

namespace LabeledBookmarks

/-! ## JavaScript string primitives, modelled structurally -/

/-- JS `String.prototype.trim`, modelled on the character list:
drop whitespace from the front, then from the back. -/
def jsTrim (s : String) : String :=
  ⟨(((s.data.dropWhile Char.isWhitespace).reverse.dropWhile Char.isWhitespace).reverse)⟩

/-- Structural "w is an initial segment of s" test on character lists. -/
def strStarts : List Char → List Char → Bool
  | _, [] => true
  | [], _ :: _ => false
  | c :: cs, w :: ws => c == w && strStarts cs ws

/-- JS `s.startsWith(w)`. -/
def jsStartsWith (s w : String) : Bool := strStarts s.data w.data

/-- Sign of JS `a.localeCompare(b)`, modelled as lexicographic comparison
of the character lists. -/
def localeCompareInt (a b : String) : Int :=
  if a.data < b.data then -1 else if b.data < a.data then 1 else 0

/-- JS `x || y` on numbers: the first operand unless it is zero (falsy). -/
def jsOr (x y : Int) : Int := if x = 0 then y else x

/-- `Number.MAX_SAFE_INTEGER`. -/
def maxSafeInteger : Int := 9007199254740991

/-! ## Data model: groups and bookmarks -/

/-- Modelled from the spec: `group.ts` is not under `src/`; §3 of the spec
gives a `Group` the fields `name`, `color`, `shape` (with a `unicode`
variant carrying `iconText`), `isActive` and `isVisible`. -/
structure Group where
  name : String
  color : String
  shape : String
  iconText : String
  isActive : Bool
  isVisible : Bool
deriving DecidableEq, Repr

/-- Modelled from the spec: reserved default group name (§3: "Exactly one
reserved group name is the default"). -/
def defaultGroupName : String := "default"

/-- `Main.fallbackColor` (main.ts). -/
def fallbackColor : String := "00ddddff"

/-- `Main.defaultShape` initial value (main.ts). -/
def defaultShapeValue : String := "bookmark"

/-- Modelled from the spec: the `Group` constructor stores the four visual
attributes; activity/visibility are managed afterwards by `Main`. -/
def Group.make (name color shape iconText : String) : Group :=
  ⟨name, color, shape, iconText, false, false⟩

/-- Modelled from the spec: `Group.getColor()` returns the stored color. -/
def Group.getColor (g : Group) : String := g.color

/-- `Bookmark` (bookmark.ts), without the decoration plumbing (external
collaborators per §1/§6 of the spec). -/
structure Bookmark where
  fsPath : String
  lineNumber : Nat
  characterNumber : Nat
  label : Option String
  lineText : String
  failedJump : Bool
  isLineNumberChanged : Bool
  group : Group
deriving DecidableEq, Repr

/-- The `Bookmark` constructor (bookmark.ts lines 22-43): `failedJump` and
`isLineNumberChanged` start `false`. -/
def Bookmark.make (fsPath : String) (lineNumber characterNumber : Nat)
    (label : Option String) (lineText : String) (group : Group) : Bookmark :=
  ⟨fsPath, lineNumber, characterNumber, label, lineText, false, false, group⟩

/-- `Bookmark.sortByLocation` (bookmark.ts lines 68-72):
`a.fsPath.localeCompare(b.fsPath) || (a.lineNumber - b.lineNumber) ||
(a.characterNumber - b.characterNumber)`. -/
def sortByLocation (a b : Bookmark) : Int :=
  jsOr (jsOr (localeCompareInt a.fsPath b.fsPath)
      ((a.lineNumber : Int) - (b.lineNumber : Int)))
    ((a.characterNumber : Int) - (b.characterNumber : Int))

/-- Boolean "comparator says a comes weakly before b". -/
def bmSortLe (a b : Bookmark) : Bool := decide (sortByLocation a b ≤ 0)

/-- The canonical total order of the spec (§4.1): `filePath`
lexicographic, then `line`, then `column`. -/
def BookmarkLE (a b : Bookmark) : Prop :=
  a.fsPath.data < b.fsPath.data ∨
    (a.fsPath = b.fsPath ∧
      (a.lineNumber < b.lineNumber ∨
        (a.lineNumber = b.lineNumber ∧ a.characterNumber ≤ b.characterNumber)))

instance : DecidablePred fun p : Bookmark × Bookmark => BookmarkLE p.1 p.2 := by
  intro p; unfold BookmarkLE; infer_instance

instance (a b : Bookmark) : Decidable (BookmarkLE a b) := by
  unfold BookmarkLE; infer_instance

/-- Insert `x` into `l` before the first element that `x` weakly precedes. -/
def jsSortInsert (le : α → α → Bool) (x : α) : List α → List α
  | [] => [x]
  | y :: ys => if le x y then x :: y :: ys else y :: jsSortInsert le x ys

/-- Comparator sort used to model `array.sort(cmp)`. -/
def jsSort (le : α → α → Bool) : List α → List α
  | [] => []
  | x :: xs => jsSortInsert le x (jsSort le xs)

/-- The post-edit text document, reduced to what the reconciler reads:
the text of each line.  `line.range.end.character` is the line length. -/
structure TextDocumentModel where
  lineTextAt : Nat → String

/-- `Main.updateBookmarkLineText` (main.ts 555-559): clamp the column to
the line length and refresh the cached trimmed line text. -/
def updateBookmarkLineText (doc : TextDocumentModel) (bm : Bookmark) : Bookmark :=
  { bm with
    characterNumber := min bm.characterNumber (doc.lineTextAt bm.lineNumber).data.length,
    lineText := jsTrim (doc.lineTextAt bm.lineNumber) }

/-- In-place branch (`newLineCount == oldLineCount`, main.ts 366-377 via
`updateBookmarkLineTextInRange`, main.ts 539-553), acting on the whole
store: only bookmarks of the edited file with line in
`[firstLine, lastLine]` have their line text refreshed. -/
def applyInPlaceEdit (doc : TextDocumentModel) (fsPath : String)
    (bookmarks : List Bookmark) (oldFirstLine oldLastLine : Nat) : List Bookmark :=
  bookmarks.map fun bm =>
    if bm.fsPath = fsPath ∧ oldFirstLine ≤ bm.lineNumber ∧ bm.lineNumber ≤ oldLastLine
    then updateBookmarkLineText doc bm else bm

/-- Per-bookmark action of the insertion branch (main.ts 380-403). -/
def insertionStep (doc : TextDocumentModel) (fsPath : String)
    (oldFirstLine newLastLine shiftDownFromLine shiftDownBy : Nat)
    (bm : Bookmark) : Bookmark :=
  if bm.fsPath = fsPath then
    let bm1 := if shiftDownFromLine ≤ bm.lineNumber
      then { bm with lineNumber := bm.lineNumber + shiftDownBy } else bm
    if oldFirstLine ≤ bm1.lineNumber ∧ bm1.lineNumber ≤ newLastLine
    then updateBookmarkLineText doc bm1 else bm1
  else bm

/-- Insertion branch (`newLineCount > oldLineCount`, main.ts 380-403),
acting on the whole store (non-file bookmarks are untouched, which is
the loop's net effect on `this.bookmarks`). -/
def applyInsertion (doc : TextDocumentModel) (fsPath : String)
    (bookmarks : List Bookmark) (oldFirstLine newLineCount oldLineCount : Nat)
    (firstLinePre : String) : List Bookmark :=
  let shiftDownBy := newLineCount - oldLineCount
  let newLastLine := oldFirstLine + newLineCount
  let isFirstLinePreEmpty := jsTrim firstLinePre = ""
  let shiftDownFromLine := if isFirstLinePreEmpty then oldFirstLine else oldFirstLine + 1
  bookmarks.map (insertionStep doc fsPath oldFirstLine newLastLine shiftDownFromLine shiftDownBy)

/-- Per-bookmark action of the deletion branch (main.ts 425-445):
skip bookmarks above the edit, delete those in
`[deleteFromLine, shiftFromLine)`, shift those at or below
`shiftFromLine`, then refresh any survivor inside the edited span. -/
def deletionStep (doc : TextDocumentModel) (fsPath : String)
    (oldFirstLine newLastLine deleteFromLine shiftFromLine shiftUpBy : Nat)
    (bm : Bookmark) : Option Bookmark :=
  if bm.fsPath = fsPath then
    if bm.lineNumber < oldFirstLine then some bm
    else if deleteFromLine ≤ bm.lineNumber ∧ bm.lineNumber < shiftFromLine then none
    else
      let bm1 := if shiftFromLine ≤ bm.lineNumber
        then { bm with lineNumber := bm.lineNumber - shiftUpBy } else bm
      some (if oldFirstLine ≤ bm1.lineNumber ∧ bm1.lineNumber ≤ newLastLine
        then updateBookmarkLineText doc bm1 else bm1)
  else some bm

/-- `deleteFromLine` of the deletion branch (main.ts 410-422): first line
when its pre-edit-column text is whitespace-only, or when no bookmark of
the file sits on the first line; otherwise first line + 1. -/
def deletionDeleteFromLine (bookmarks : List Bookmark) (fsPath : String)
    (oldFirstLine : Nat) (firstLinePre : String) : Nat :=
  let isFirstLineBookmarkDeletable :=
    jsTrim firstLinePre = "" ∨
      ((bookmarks.filter fun bm => decide (bm.fsPath = fsPath)).find? fun bm =>
        decide (bm.lineNumber = oldFirstLine)) = none
  if isFirstLineBookmarkDeletable then oldFirstLine else oldFirstLine + 1

/-- Deletion branch (`newLineCount < oldLineCount`, main.ts 406-447),
acting on the whole store. -/
def applyDeletion (doc : TextDocumentModel) (fsPath : String)
    (bookmarks : List Bookmark) (oldFirstLine newLineCount oldLineCount : Nat)
    (firstLinePre : String) : List Bookmark :=
  let shiftUpBy := oldLineCount - newLineCount
  let newLastLine := oldFirstLine + newLineCount
  let deleteFromLine := deletionDeleteFromLine bookmarks fsPath oldFirstLine firstLinePre
  let shiftFromLine := deleteFromLine + shiftUpBy
  bookmarks.filterMap
    (deletionStep doc fsPath oldFirstLine newLastLine deleteFromLine shiftFromLine shiftUpBy)

/-- One discrete content change of `Main.onEditorDocumentChanged`
(main.ts 359-448): dispatch on the sign of
`newLineCount - (oldLastLine - oldFirstLine)`. -/
def onEditorDocumentChangedOne (doc : TextDocumentModel) (fsPath : String)
    (bookmarks : List Bookmark) (oldFirstLine oldLastLine newLineCount : Nat)
    (firstLinePre : String) : List Bookmark :=
  let oldLineCount := oldLastLine - oldFirstLine
  if newLineCount = oldLineCount then
    applyInPlaceEdit doc fsPath bookmarks oldFirstLine oldLastLine
  else if oldLineCount < newLineCount then
    applyInsertion doc fsPath bookmarks oldFirstLine newLineCount oldLineCount firstLinePre
  else
    applyDeletion doc fsPath bookmarks oldFirstLine newLineCount oldLineCount firstLinePre

/-! ## Navigation (`Main.nextBookmark` / `Main.previousBookmark`,
main.ts 883-918 and 936-979) -/

/-- The strict-order test of `nextBookmark`'s scan: file later than the
query file, or same file and line strictly below the bookmark. -/
def strictlyFollows (fsPath : String) (line : Nat) (bm : Bookmark) : Bool :=
  if bm.fsPath.data < fsPath.data then false
  else if fsPath.data < bm.fsPath.data then true
  else decide (line < bm.lineNumber)

/-- `Main.nextBookmark` on the active group's list; the second component
records whether the "all bookmarks are broken" warning was raised. -/
def nextBookmark (groupBookmarkList : List Bookmark) (fsPath : String)
    (line : Nat) : Option Bookmark × Bool :=
  let firstCandidate := groupBookmarkList.find? fun bm =>
    !bm.failedJump && strictlyFollows fsPath line bm
  match firstCandidate with
  | some bm => (some bm, false)
  | none =>
    if 0 < groupBookmarkList.length then
      if groupBookmarkList.countP (·.failedJump) < groupBookmarkList.length then
        (groupBookmarkList.find? fun bm => !bm.failedJump, false)
      else
        (none, true)
    else (none, false)

/-- The strict-order test of `previousBookmark`'s backward scan. -/
def strictlyPrecedes (fsPath : String) (line : Nat) (bm : Bookmark) : Bool :=
  if fsPath.data < bm.fsPath.data then false
  else if bm.fsPath.data < fsPath.data then true
  else decide (bm.lineNumber < line)

/-- `Main.previousBookmark`: the backward loop is the forward scan of the
reversed list. -/
def previousBookmark (groupBookmarkList : List Bookmark) (fsPath : String)
    (line : Nat) : Option Bookmark × Bool :=
  let firstCandidate := groupBookmarkList.reverse.find? fun bm =>
    !bm.failedJump && strictlyPrecedes fsPath line bm
  match firstCandidate with
  | some bm => (some bm, false)
  | none =>
    if 0 < groupBookmarkList.length then
      if groupBookmarkList.countP (·.failedJump) < groupBookmarkList.length then
        (groupBookmarkList.reverse.find? fun bm => !bm.failedJump, false)
      else
        (none, true)
    else (none, false)

/-! ## Nearest bookmark in file
(`Main.getNearestActiveBookmarkInFile`, main.ts 1792-1836) -/

/-- Scan state: the four tracking variables of the source. -/
structure NearestScan where
  nearestBeforeLine : Int
  nearestBefore : Option Bookmark
  nearestAfterLine : Int
  nearestAfter : Option Bookmark
deriving DecidableEq, Repr

/-- One `forEach` iteration (main.ts 1807-1817). -/
def nearestStep (lineNumber : Nat) (st : NearestScan) (bm : Bookmark) : NearestScan :=
  let st1 := if st.nearestBeforeLine < (bm.lineNumber : Int) ∧ bm.lineNumber ≤ lineNumber
    then { st with nearestBeforeLine := bm.lineNumber, nearestBefore := some bm } else st
  if (bm.lineNumber : Int) < st1.nearestAfterLine ∧ lineNumber ≤ bm.lineNumber
  then { st1 with nearestAfterLine := bm.lineNumber, nearestAfter := some bm } else st1

/-- The group filter of `getNearestActiveBookmarkInFile` (main.ts 1806):
`group === null || g.group === group`. -/
def nearestFilter (fileBookmarkList : List Bookmark) (group : Option Group) :
    List Bookmark :=
  fileBookmarkList.filter fun bm =>
    match group with
    | none => true
    | some g => decide (bm.group = g)

/-- `Main.getNearestActiveBookmarkInFile`, on the file's bookmark list
(already restricted to one `fsPath` by the per-file cache). -/
def getNearestActiveBookmarkInFile (fileBookmarkList : List Bookmark)
    (group : Option Group) (lineNumber : Nat) : Option Bookmark :=
  let st := (nearestFilter fileBookmarkList group).foldl (nearestStep lineNumber)
    ⟨-1, none, maxSafeInteger, none⟩
  match st.nearestBefore, st.nearestAfter with
  | none, none => none
  | some bBefore, some bAfter =>
    if (lineNumber : Int) - st.nearestBeforeLine < st.nearestAfterLine - (lineNumber : Int)
    then some bBefore else some bAfter
  | some bBefore, none => some bBefore
  | none, some bAfter => some bAfter

/-! ## Group registry (`Main.getGroupByName`, `Main.ensureGroup`,
`Main.getLeastUsedColor`, `Main.activateGroup`, main.ts 318-326 and
1648-1714) -/

/-- `Main.getGroupByName` (main.ts 318-326): linear scan by name, falling
back to the active group. -/
def getGroupByName (groups : List Group) (activeGroup : Group)
    (groupName : String) : Group :=
  match groups.find? fun g => decide (g.name = groupName) with
  | some g => g
  | none => activeGroup

/-- JS `Map.prototype.set` on an association list: overwrite in place,
else append (insertion order preserved). -/
def mapSet (m : List (String × Nat)) (k : String) (v : Nat) : List (String × Nat) :=
  if m.any fun p => decide (p.1 = k) then
    m.map fun p => if p.1 = k then (k, v) else p
  else m ++ [(k, v)]

/-- JS `Map.prototype.get` on an association list. -/
def mapGet (m : List (String × Nat)) (k : String) : Option Nat :=
  (m.find? fun p => decide (p.1 = k)).map (·.2)

/-- The `usages` map of `Main.getLeastUsedColor` (main.ts 1690-1701):
one zero entry per distinct configured color value, then one increment
per group using a configured color. -/
def colorUsages (colors : List (String × String)) (groups : List Group) :
    List (String × Nat) :=
  let init := colors.foldl (fun m kv => mapSet m kv.2 0) []
  groups.foldl
    (fun m g =>
      if (mapGet m g.getColor).isSome
      then mapSet m g.getColor ((mapGet m g.getColor).getD 0 + 1) else m)
    init

/-- The minimum scan of `Main.getLeastUsedColor` (main.ts 1703-1711). -/
def leastUsedScan (m : List (String × Nat)) (acc : Int × String) : Int × String :=
  m.foldl (fun a p => if a.1 > (p.2 : Int) then ((p.2 : Int), p.1) else a) acc

/-- `Main.getLeastUsedColor` (main.ts 1685-1714). -/
def getLeastUsedColor (colors : List (String × String)) (groups : List Group) :
    String :=
  if colors.length < 1 then fallbackColor
  else (leastUsedScan (colorUsages colors groups) (maxSafeInteger, "")).2

/-- `Main.ensureGroup` (main.ts 1668-1683): get-or-create; a created group
gets the least-used color, the default shape, and its name as icon text,
then the group list is re-sorted by name. -/
def ensureGroup (colors : List (String × String)) (defaultShape : String)
    (groups : List Group) (name : String) : List Group × Group :=
  match groups.find? fun g => decide (g.name = name) with
  | some g => (groups, g)
  | none =>
    let g := Group.make name (getLeastUsedColor colors groups) defaultShape name
    (jsSort (fun a b => decide (localeCompareInt a.name b.name ≤ 0)) (groups ++ [g]), g)

/-! ## Whole-extension state (fields of `Main`) -/

structure MainState where
  groups : List Group
  bookmarks : List Bookmark
  activeGroup : Group
  hideInactiveGroups : Bool
  hideAll : Bool
  colors : List (String × String)
  defaultShape : String
deriving Repr

/-- `Main.setGroupVisibilities` (main.ts 1662-1666). -/
def setGroupVisibilities (s : MainState) : MainState :=
  { s with groups := s.groups.map fun g =>
      { g with isVisible := !s.hideAll && (!s.hideInactiveGroups || g.isActive) } }

/-- `Main.activateGroup` (main.ts 1648-1660).  TypeScript compares object
identities (`===`); in this value model two groups are "the same object"
when they are equal as values (group names are unique in the registry). -/
def activateGroup (s : MainState) (name : String) : MainState :=
  let eg := ensureGroup s.colors s.defaultShape s.groups name
  if eg.2 = s.activeGroup then { s with groups := eg.1 }
  else
    let groups2 := eg.1.map fun g =>
      if g = s.activeGroup then { g with isActive := false }
      else if g = eg.2 then { g with isActive := true } else g
    setGroupVisibilities
      { s with groups := groups2, activeGroup := { eg.2 with isActive := true } }

/-! ## Bookmark commands -/

/-- `Main.toggleBookmark` (main.ts 725-757): delete the bookmark of the
same file, line and group if it exists, else insert a new unlabeled
bookmark and re-sort by location. -/
def toggleBookmark (bookmarks : List Bookmark) (fsPath : String)
    (lineNumber characterNumber : Nat) (lineText : String) (group : Group) :
    List Bookmark :=
  let fileList := bookmarks.filter fun bm => decide (bm.fsPath = fsPath)
  match fileList.find? fun bm =>
      decide (bm.lineNumber = lineNumber) && decide (bm.group = group) with
  | some existing => bookmarks.erase existing
  | none =>
    jsSort bmSortLe
      (bookmarks ++ [Bookmark.make fsPath lineNumber characterNumber none lineText group])

/-- `Main.deleteBookmark` (main.ts 577-593): splice at `indexOf`, i.e.
remove the first occurrence. -/
def deleteBookmark (bookmarks : List Bookmark) (bm : Bookmark) : List Bookmark :=
  bookmarks.erase bm

/-- Core of `Main.moveBookmarksBetween` (main.ts 1439-1483): per selected
bookmark delete the old one and append a recreated copy owned by `dst`,
then re-sort by location. -/
def moveBookmarksBetween (bookmarks : List Bookmark) (selected : List Bookmark)
    (dst : Group) : List Bookmark :=
  jsSort bmSortLe
    (selected.foldl
      (fun acc old =>
        (acc.erase old) ++
          [Bookmark.make old.fsPath old.lineNumber old.characterNumber old.label
            old.lineText dst])
      bookmarks)

/-- Outcome of the host `showTextDocument`/`revealRange` interaction in
`Main.jumpToBookmark` (main.ts 1766-1790): the happy path, the caught
exception, and the rejected promise. -/
inductive JumpOutcome
  | success
  | revealError
  | openRejected
deriving DecidableEq, Repr

/-- `Main.jumpToBookmark`'s effect on the target bookmark's `failedJump`
flag: failure paths set it, a successful jump clears it (main.ts 1779,
1783, 1786). -/
def jumpToBookmark (bm : Bookmark) (outcome : JumpOutcome) : Bookmark :=
  match outcome with
  | .success => { bm with failedJump := false }
  | .revealError => { bm with failedJump := true }
  | .openRejected => { bm with failedJump := true }

/-- `Main.actionClearFailedJumpFlags` (main.ts 1399-1411). -/
def actionClearFailedJumpFlags (bookmarks : List Bookmark) : List Bookmark :=
  bookmarks.map fun bm =>
    if bm.failedJump then { bm with failedJump := false } else bm

/-! ## Persistence (`Main.saveState` / `Main.loadState` / `Main.isEmpty`,
main.ts 148-269, serializable_bookmark.ts) -/

/-- `SerializableBookmark` (serializable_bookmark.ts). -/
structure SerializableBookmark where
  fsPath : String
  lineNumber : Nat
  characterNumber : Nat
  label : Option String
  lineText : String
  isLineNumberChanged : Bool
  groupName : String
deriving DecidableEq, Repr

/-- `SerializableBookmark.fromBookmark` (serializable_bookmark.ts 32-47):
relativize the path against the workspace folder when the path starts
with it.  `pr` models Node's `path.relative`. -/
def SerializableBookmark.fromBookmark (pr : String → String → String)
    (ws : Option String) (b : Bookmark) : SerializableBookmark :=
  let relativePath := match ws with
    | some w => if jsStartsWith b.fsPath w then pr w b.fsPath else b.fsPath
    | none => b.fsPath
  ⟨relativePath, b.lineNumber, b.characterNumber, b.label, b.lineText, false,
    b.group.name⟩

/-- `Bookmark.fromSerializableBookMark` (bookmark.ts 45-66): resolve a
relative stored path against the workspace folder, and resolve the group
through the registry.  `pj` models Node's `path.join` and `ia` models
`path.isAbsolute`. -/
def Bookmark.fromSerializableBookMark (pj : String → String → String)
    (ia : String → Bool) (ws : Option String) (groupGetter : String → Group)
    (sb : SerializableBookmark) : Bookmark :=
  let absolutePath := match ws with
    | some w => if !ia sb.fsPath then pj w sb.fsPath else sb.fsPath
    | none => sb.fsPath
  Bookmark.make absolutePath sb.lineNumber sb.characterNumber sb.label sb.lineText
    (groupGetter sb.groupName)

/-- Modelled from the spec: `SerializableGroup` (§6: groups persist as
`{name, color, shape, iconText}`); `group.ts` is not under `src/`. -/
structure SerializableGroup where
  name : String
  color : String
  shape : String
  iconText : String
deriving DecidableEq, Repr

/-- Modelled from the spec: `SerializableGroup.fromGroup` keeps the four
persisted attributes. -/
def SerializableGroup.fromGroup (g : Group) : SerializableGroup :=
  ⟨g.name, g.color, g.shape, g.iconText⟩

/-- Modelled from the spec: `Group.fromSerializableGroup` reconstructs a
group from its persisted attributes. -/
def Group.fromSerializableGroup (sg : SerializableGroup) : Group :=
  Group.make sg.name sg.color sg.shape sg.iconText

/-- `Main.savedBookmarksFileVersionValue`. -/
def fileVersionValue : String := "1.0"

/-- The versioned persisted document written by `Main.saveState`. -/
structure SavedState where
  fileVersion : String
  groups : List SerializableGroup
  bookmarks : List SerializableBookmark
  activeGroup : String
  hideInactiveGroups : Bool
  hideAll : Bool
deriving DecidableEq, Repr

/-- The serialized envelope built by `Main.saveState` (main.ts 228-246). -/
def saveEnvelope (pr : String → String → String) (ws : Option String)
    (s : MainState) : SavedState :=
  ⟨fileVersionValue,
    s.groups.map SerializableGroup.fromGroup,
    s.bookmarks.map (SerializableBookmark.fromBookmark pr ws),
    s.activeGroup.name,
    s.hideInactiveGroups,
    s.hideAll⟩

/-- `Main.isEmpty` (main.ts 217-219). -/
def isEmpty (s : MainState) : Bool :=
  decide (s.bookmarks.length = 0) &&
    (decide (s.groups.length = 1) &&
      match s.groups.head? with
      | some g => decide (g.name = defaultGroupName)
      | none => false)

/-- What `Main.saveState` (main.ts 221-269) does to the file system. -/
inductive SaveOutcome
  | noTargetPath
  | cleanedUp (deletedFile : Bool) (deletedDir : Bool)
  | wrote (env : SavedState)
deriving DecidableEq, Repr

/-- `Main.saveState`.  `pathDefined` models whether
`savedBookmarksFilePath` is set, `fileExists` whether the artifact
exists, `dirExists`/`dirFileCount` the state of the containing directory
after the artifact is removed. -/
def saveState (pr : String → String → String) (ws : Option String)
    (s : MainState) (pathDefined fileExists dirExists : Bool)
    (dirFileCount : Nat) : SaveOutcome :=
  if !pathDefined then .noTargetPath
  else
    let env := saveEnvelope pr ws s
    if isEmpty s then
      if fileExists then .cleanedUp true (dirExists && decide (dirFileCount = 0))
      else .cleanedUp false false
    else .wrote env

/-- `Main.loadState` (main.ts 148-215) applied to a parsed envelope:
version gate, flags, then groups restored and sorted by name (main.ts
184-194).  The bookmark loop resets `this.bookmarks` to an empty array
(main.ts 199) and then calls the three-parameter
`Bookmark.fromSerializableBookMark` (bookmark.ts 45-49) with
`this.decorationFactory` in the `groupGetter` position (main.ts 202), so
`groupGetter(serialized.groupName)` (bookmark.ts 63) throws on the first
serialized bookmark; the catch at main.ts 207-209 abandons the loop and
the restored bookmark list stays empty (it is also empty when nothing was
serialized).  Finally the saved active group is activated. -/
def loadStateFromEnvelope (pre : MainState) (env : SavedState) :
    Option MainState :=
  if env.fileVersion = fileVersionValue then
    let hideInactiveGroups := env.hideInactiveGroups
    let hideAll := env.hideAll
    let activeGroupName := env.activeGroup
    let groups1 :=
      jsSort (fun a b => decide (localeCompareInt a.name b.name ≤ 0))
        (env.groups.map Group.fromSerializableGroup)
    let bookmarks1 : List Bookmark := []
    let s1 := { pre with
      groups := groups1
      bookmarks := bookmarks1
      hideInactiveGroups := hideInactiveGroups
      hideAll := hideAll }
    some (activateGroup s1 activeGroupName)
  else none

/-! ## Generic helper lemmas -/

/-- Concrete sample group used by witnesses. -/
def gSample : Group := Group.make defaultGroupName fallbackColor defaultShapeValue ""

/-- Another sample group with a customized color. -/
def gOther : Group := Group.make "work" "ff0000ff" "circle" "work"

/-- A bookmark whose `failedJump` flag has been set by a navigation
failure. -/
def bmBroken : Bookmark :=
  { Bookmark.make "/w/a.ts" 3 0 none "let x = 1;" gSample with failedJump := true }

/-- The claim's reading of emptiness, following its words: zero bookmarks
and exactly one group, that group being the default group *with no
customization* (the default group is created with the fallback color,
the default shape and empty icon text, main.ts 116). -/
def claimIsEmptyNoCustomization (s : MainState) : Bool :=
  decide (s.bookmarks = []) &&
    match s.groups with
    | [g] => decide (g.name = defaultGroupName) && decide (g.color = fallbackColor) &&
        decide (g.shape = defaultShapeValue) && decide (g.iconText = "")
    | _ => false

/-- A state with no bookmarks and a single default-named group whose
color and shape have been customized by the user. -/
def sCustomizedEmpty : MainState :=
  let g : Group := ⟨defaultGroupName, "ff0000ff", "circle", "", true, true⟩
  ⟨[g], [], g, false, false, [], defaultShapeValue⟩

/-- Three bookmarks in one group with two flagged failed (the spec's
failed-jump exclusion test). -/
def bmOkSample : Bookmark := Bookmark.make "/w/a.ts" 10 0 none "ok" gSample

def lThreeSample : List Bookmark :=
  [{ Bookmark.make "/w/a.ts" 1 0 none "x" gSample with failedJump := true },
    bmOkSample,
    { Bookmark.make "/w/a.ts" 20 0 none "y" gSample with failedJump := true }]

def lAllFailedSample : List Bookmark :=
  [{ Bookmark.make "/w/a.ts" 1 0 none "x" gSample with failedJump := true },
    { Bookmark.make "/w/a.ts" 20 0 none "y" gSample with failedJump := true }]

/-- The claim's description of the deletion branch's per-bookmark routing
(C2's wording, conditions in the claim's order). -/
def claimDeletionStep (doc : TextDocumentModel)
    (shiftUpBy deleteFromLine shiftFromLine firstLine newLineCount : Nat)
    (bm : Bookmark) : Option Bookmark :=
  if deleteFromLine ≤ bm.lineNumber ∧ bm.lineNumber < shiftFromLine then none
  else if bm.lineNumber < firstLine then some bm
  else
    let bm1 := if shiftFromLine ≤ bm.lineNumber
      then { bm with lineNumber := bm.lineNumber - shiftUpBy } else bm
    some (if firstLine ≤ bm1.lineNumber ∧ bm1.lineNumber ≤ firstLine + newLineCount
      then updateBookmarkLineText doc bm1 else bm1)

/-- Sample post-edit document and bookmarks for the concrete scenarios. -/
def docSample : TextDocumentModel := ⟨fun _ => " code "⟩

def bmLine (n : Nat) : Bookmark := Bookmark.make "/f" n 0 none "orig" gSample

/-- The claim's description of the insertion branch's per-bookmark action
(C3's wording). -/
def claimInsertionStep (doc : TextDocumentModel)
    (shiftDownBy shiftDownFromLine firstLine newLineCount : Nat)
    (bm : Bookmark) : Bookmark :=
  let bm1 := if shiftDownFromLine ≤ bm.lineNumber
    then { bm with lineNumber := bm.lineNumber + shiftDownBy } else bm
  if firstLine ≤ bm1.lineNumber ∧ bm1.lineNumber ≤ firstLine + newLineCount
  then updateBookmarkLineText doc bm1 else bm1

/-- Two equidistant bookmarks around query line 4. -/
def bmNear2 : Bookmark := Bookmark.make "/f" 2 0 none "a" gSample

def bmNear6 : Bookmark := Bookmark.make "/f" 6 0 none "b" gSample

/-- The line transform of the insertion branch, as a function of the
bookmark's path and line. -/
def insLineOf (p : String) (sdf d : Nat) (path : String) (line : Nat) : Nat :=
  if path = p ∧ sdf ≤ line then line + d else line

/-- The column transform of the insertion branch. -/
def insCharOf (doc : TextDocumentModel) (p : String) (a b sdf d : Nat)
    (path : String) (line ch : Nat) : Nat :=
  if path = p then
    if a ≤ insLineOf p sdf d path line ∧ insLineOf p sdf d path line ≤ b
    then min ch (doc.lineTextAt (insLineOf p sdf d path line)).data.length
    else ch
  else ch

/-- The line transform of the deletion branch on surviving bookmarks. -/
def delLineOf (p : String) (shiftFromLine shiftUpBy : Nat) (path : String)
    (line : Nat) : Nat :=
  if path = p ∧ shiftFromLine ≤ line then line - shiftUpBy else line

/-- The column transform of the deletion branch on surviving bookmarks. -/
def delCharOf (doc : TextDocumentModel) (p : String)
    (oldFirstLine newLastLine shiftFromLine shiftUpBy : Nat) (path : String)
    (line ch : Nat) : Nat :=
  if path = p then
    if line < oldFirstLine then ch
    else
      if oldFirstLine ≤ delLineOf p shiftFromLine shiftUpBy path line ∧
          delLineOf p shiftFromLine shiftUpBy path line ≤ newLastLine
      then min ch
        (doc.lineTextAt (delLineOf p shiftFromLine shiftUpBy path line)).data.length
      else ch
  else ch

/-- First occurrences of a value list, excluding already-seen keys:
the insertion-order key sequence produced by repeated JS `Map.set`. -/
def dedupExcl (ks : List String) : List String → List String
  | [] => []
  | v :: vs => if v ∈ ks then dedupExcl ks vs else v :: dedupExcl (v :: ks) vs

/-- The persisted attributes of a group (§6: name, color, shape, icon text). -/
def groupAttrs (g : Group) : String × String × String × String :=
  (g.name, g.color, g.shape, g.iconText)

/-- The persisted attributes of a bookmark, with the owning group reduced
to its name. -/
def bookmarkAttrs (b : Bookmark) :
    String × Nat × Nat × Option String × String × String :=
  (b.fsPath, b.lineNumber, b.characterNumber, b.label, b.lineText, b.group.name)

/-- The composite path transform of one save/load cycle: relativization
against the workspace folder (serializable_bookmark.ts 32-47) followed by
re-resolution (bookmark.ts 45-66). -/
def roundTripPath (pr pj : String → String → String) (ia : String → Bool)
    (ws : Option String) (p : String) : String :=
  let rel := match ws with
    | some w => if jsStartsWith p w then pr w p else p
    | none => p
  match ws with
  | some w => if !ia rel then pj w rel else rel
  | none => rel

/-- A concrete one-group, one-bookmark state for exercising the round trip. -/
def gDefSample : Group :=
  Group.make defaultGroupName fallbackColor defaultShapeValue defaultGroupName

def bmRoundTrip : Bookmark :=
  Bookmark.make "/w/a.txt" 3 1 none "text" gDefSample

def sRoundTrip : MainState :=
  ⟨[gDefSample], [bmRoundTrip], gDefSample, false, true, [("a", "A")],
    defaultShapeValue⟩

def preRoundTrip : MainState :=
  ⟨[gDefSample], [], gDefSample, false, false, [("a", "A")], defaultShapeValue⟩

theorem string_data_eq {a b : String} (h : a.data = b.data) : a = b :=
  congrArg String.mk h

theorem jsOr_zero (y : Int) : jsOr 0 y = y := by
  unfold jsOr; simp

theorem jsOr_nonzero {x : Int} (h : x ≠ 0) (y : Int) : jsOr x y = x := by
  unfold jsOr; simp [h]

theorem localeCompareInt_of_lt {a b : String} (h : a.data < b.data) :
    localeCompareInt a b = -1 := by
  unfold localeCompareInt; rw [if_pos h]

theorem localeCompareInt_of_gt {a b : String} (h : b.data < a.data) :
    localeCompareInt a b = 1 := by
  unfold localeCompareInt; rw [if_neg (asymm h), if_pos h]

theorem localeCompareInt_of_eq {a b : String} (h : a.data = b.data) :
    localeCompareInt a b = 0 := by
  unfold localeCompareInt
  rw [if_neg (by simp [h]), if_neg (by simp [h])]

theorem sortByLocation_of_path_lt {a b : Bookmark}
    (h : a.fsPath.data < b.fsPath.data) : sortByLocation a b = -1 := by
  have h1 : jsOr (-1 : Int) ((a.lineNumber : Int) - (b.lineNumber : Int)) = -1 :=
    jsOr_nonzero (by norm_num) _
  unfold sortByLocation
  rw [localeCompareInt_of_lt h, h1, jsOr_nonzero (by norm_num)]

theorem sortByLocation_of_path_gt {a b : Bookmark}
    (h : b.fsPath.data < a.fsPath.data) : sortByLocation a b = 1 := by
  have h1 : jsOr (1 : Int) ((a.lineNumber : Int) - (b.lineNumber : Int)) = 1 :=
    jsOr_nonzero (by norm_num) _
  unfold sortByLocation
  rw [localeCompareInt_of_gt h, h1, jsOr_nonzero (by norm_num)]

theorem sortByLocation_of_path_eq {a b : Bookmark}
    (h : a.fsPath.data = b.fsPath.data) :
    sortByLocation a b =
      jsOr ((a.lineNumber : Int) - (b.lineNumber : Int))
        ((a.characterNumber : Int) - (b.characterNumber : Int)) := by
  unfold sortByLocation
  rw [localeCompareInt_of_eq h, jsOr_zero]

/-- The comparator of the source agrees with the canonical order of the
spec. -/
theorem bmSortLe_iff_BookmarkLE (a b : Bookmark) :
    bmSortLe a b = true ↔ BookmarkLE a b := by
  unfold bmSortLe BookmarkLE
  simp only [decide_eq_true_eq]
  rcases lt_trichotomy a.fsPath.data b.fsPath.data with h | h | h
  · rw [sortByLocation_of_path_lt h]
    simp [h]
  · have heq : a.fsPath = b.fsPath := string_data_eq h
    rw [sortByLocation_of_path_eq h]
    simp only [heq, lt_self_iff_false, false_or, true_and]
    by_cases h' : ((a.lineNumber : Int) - (b.lineNumber : Int)) = 0
    · rw [h', jsOr_zero]; omega
    · rw [jsOr_nonzero h']; omega
  · have hne : a.fsPath ≠ b.fsPath := by
      intro hc; rw [hc] at h; exact lt_irrefl _ h
    rw [sortByLocation_of_path_gt h]
    have hnlt : ¬ a.fsPath.data < b.fsPath.data := asymm h
    simp [hnlt, hne]

theorem BookmarkLE_total (a b : Bookmark) : BookmarkLE a b ∨ BookmarkLE b a := by
  unfold BookmarkLE
  rcases lt_trichotomy a.fsPath.data b.fsPath.data with h | h | h
  · exact Or.inl (Or.inl h)
  · have heq : a.fsPath = b.fsPath := string_data_eq h
    rcases lt_trichotomy a.lineNumber b.lineNumber with hl | hl | hl
    · exact Or.inl (Or.inr ⟨heq, Or.inl hl⟩)
    · rcases le_total a.characterNumber b.characterNumber with hc | hc
      · exact Or.inl (Or.inr ⟨heq, Or.inr ⟨hl, hc⟩⟩)
      · exact Or.inr (Or.inr ⟨heq.symm, Or.inr ⟨hl.symm, hc⟩⟩)
    · exact Or.inr (Or.inr ⟨heq.symm, Or.inl hl⟩)
  · exact Or.inr (Or.inl h)

theorem BookmarkLE_trans {a b c : Bookmark}
    (h1 : BookmarkLE a b) (h2 : BookmarkLE b c) : BookmarkLE a c := by
  unfold BookmarkLE at *
  rcases h1 with h1 | ⟨he1, h1⟩
  · rcases h2 with h2 | ⟨he2, -⟩
    · exact Or.inl (lt_trans h1 h2)
    · exact Or.inl (he2 ▸ h1)
  · rcases h2 with h2 | ⟨he2, h2⟩
    · exact Or.inl (he1 ▸ h2)
    · exact Or.inr ⟨he1.trans he2, by omega⟩

/-! ## `Array.prototype.sort(cmp)`, modelled as a stable insertion sort -/

theorem jsSortInsert_perm (le : α → α → Bool) (x : α) (l : List α) :
    (jsSortInsert le x l).Perm (x :: l) := by
  induction l with
  | nil => simp [jsSortInsert]
  | cons y ys ih =>
    unfold jsSortInsert
    by_cases h : le x y
    · simp [h]
    · simp only [if_neg h]
      exact ((ih.cons y).trans (List.Perm.swap x y ys))

theorem jsSort_perm (le : α → α → Bool) (l : List α) : (jsSort le l).Perm l := by
  induction l with
  | nil => simp [jsSort]
  | cons x xs ih =>
    exact (jsSortInsert_perm le x (jsSort le xs)).trans (ih.cons x)

theorem jsSortInsert_pairwise {le : α → α → Bool} {R : α → α → Prop}
    (hR : ∀ a b, le a b = true → R a b)
    (htrans : ∀ a b c, R a b → R b c → R a c)
    (htot : ∀ a b, le a b = true ∨ le b a = true)
    (x : α) {l : List α} (hl : l.Pairwise R) :
    (jsSortInsert le x l).Pairwise R := by
  induction l with
  | nil => simp [jsSortInsert]
  | cons y ys ih =>
    unfold jsSortInsert
    by_cases h : le x y
    · simp only [if_pos h]
      refine List.Pairwise.cons ?_ hl
      intro b hb
      rcases List.mem_cons.mp hb with rfl | hb
      · exact hR _ _ h
      · exact htrans _ _ _ (hR _ _ h) (List.rel_of_pairwise_cons hl hb)
    · simp only [if_neg h]
      have hyx : le y x = true := by
        rcases htot x y with h' | h'
        · exact absurd h' h
        · exact h'
      refine List.Pairwise.cons ?_ (ih (List.Pairwise.of_cons hl))
      intro b hb
      have hmem := (jsSortInsert_perm le x ys).mem_iff.mp hb
      rcases List.mem_cons.mp hmem with rfl | hb'
      · exact hR _ _ hyx
      · exact List.rel_of_pairwise_cons hl hb'

theorem jsSort_pairwise {le : α → α → Bool} {R : α → α → Prop}
    (hR : ∀ a b, le a b = true → R a b)
    (htrans : ∀ a b c, R a b → R b c → R a c)
    (htot : ∀ a b, le a b = true ∨ le b a = true)
    (l : List α) : (jsSort le l).Pairwise R := by
  induction l with
  | nil => simp [jsSort]
  | cons x xs ih => exact jsSortInsert_pairwise hR htrans htot x ih

/-! ## Edit reconciliation (`Main.onEditorDocumentChanged`, main.ts 349-456) -/

theorem countP_lt_length_of_exists_not {l : List α} {p : α → Bool}
    (h : ∃ a ∈ l, ¬ p a = true) : l.countP p < l.length := by
  rcases h with ⟨a, ha, hpa⟩
  rcases lt_or_eq_of_le (List.countP_le_length p (l := l)) with h' | h'
  · exact h'
  · exact absurd (List.countP_eq_length.mp h' a ha) hpa

theorem find?_isSome_of_exists {l : List α} {p : α → Bool}
    (h : ∃ a ∈ l, p a = true) : ∃ b, l.find? p = some b := by
  rcases h with ⟨a, ha, hpa⟩
  cases hf : l.find? p with
  | some b => exact ⟨b, rfl⟩
  | none => exact absurd hpa (List.find?_eq_none.mp hf a ha)

/-- `getGroupByName` returns a member with the requested name whenever one
exists. -/
theorem getGroupByName_found {groups : List Group} {activeGroup : Group}
    {n : String} (h : ∃ g ∈ groups, g.name = n) :
    getGroupByName groups activeGroup n ∈ groups ∧
      (getGroupByName groups activeGroup n).name = n := by
  unfold getGroupByName
  cases hf : groups.find? (fun g => decide (g.name = n)) with
  | some g =>
    refine ⟨List.mem_of_find?_eq_some hf, ?_⟩
    have := List.find?_some hf
    simpa using this
  | none =>
    rcases h with ⟨g, hg, hname⟩
    have := List.find?_eq_none.mp hf g hg
    simp [hname] at this

theorem getGroupByName_not_found {groups : List Group} {activeGroup : Group}
    {n : String} (h : ¬ ∃ g ∈ groups, g.name = n) :
    getGroupByName groups activeGroup n = activeGroup := by
  unfold getGroupByName
  cases hf : groups.find? (fun g => decide (g.name = n)) with
  | some g =>
    exact absurd ⟨g, List.mem_of_find?_eq_some hf, by simpa using List.find?_some hf⟩ h
  | none => rfl

/-! ## Claim C10 -/

/-- C10: for every group-name string, `getGroupByName` returns the group
with that exact name when such a group exists in the registry, and
otherwise returns the currently active group — it never fails and never
returns no group (the function is total and always yields a `Group`). -/
theorem C10_getGroupByName_total (groups : List Group) (activeGroup : Group)
    (n : String) :
    ((∃ g ∈ groups, g.name = n) →
      getGroupByName groups activeGroup n ∈ groups ∧
        (getGroupByName groups activeGroup n).name = n) ∧
    ((¬ ∃ g ∈ groups, g.name = n) →
      getGroupByName groups activeGroup n = activeGroup) :=
  ⟨fun h => getGroupByName_found h, fun h => getGroupByName_not_found h⟩

theorem C10_witness :
    (getGroupByName [gOther, gSample] gOther defaultGroupName ∈ [gOther, gSample] ∧
      (getGroupByName [gOther, gSample] gOther defaultGroupName).name = defaultGroupName) ∧
    getGroupByName [gOther] gSample "absent" = gSample :=
  ⟨(C10_getGroupByName_total [gOther, gSample] gOther defaultGroupName).1
      ⟨gSample, by decide, by decide⟩,
    (C10_getGroupByName_total [gOther] gSample "absent").2 (by decide)⟩

/-! ## Claim C8 -/

/-- C8 counterexample: the claim says the flag stays `true` under every
subsequent operation except the explicit clear-failed-jump-flags
command; but a subsequent *successful* `jumpToBookmark` (main.ts 1783)
— which is not that command — resets the flag to `false`. -/
theorem C8_counterexample :
    bmBroken.failedJump = true ∧
      (jumpToBookmark bmBroken JumpOutcome.success).failedJump = false :=
  ⟨rfl, rfl⟩

/-- C8 (amended): a navigation failure sets `failedJump`; the flag is
reset to `false` by the explicit clear-failed-jump-flags command (on
every bookmark) and also by a subsequent successful jump to that
bookmark; every other modelled operation (edit reconciliation, line-text
refresh, toggling other bookmarks) preserves the flag of every surviving
bookmark. -/
theorem C8_failedJump_amended :
    (∀ bm, (jumpToBookmark bm JumpOutcome.revealError).failedJump = true ∧
      (jumpToBookmark bm JumpOutcome.openRejected).failedJump = true) ∧
    (∀ bm, (jumpToBookmark bm JumpOutcome.success).failedJump = false) ∧
    (∀ l, ∀ bm' ∈ actionClearFailedJumpFlags l, bm'.failedJump = false) ∧
    (∀ doc bm, (updateBookmarkLineText doc bm).failedJump = bm.failedJump) ∧
    (∀ doc p a b c d bm, (insertionStep doc p a b c d bm).failedJump = bm.failedJump) ∧
    (∀ doc p a b c d e bm bm', deletionStep doc p a b c d e bm = some bm' →
      bm'.failedJump = bm.failedJump) ∧
    (∀ doc p l a b, ∀ bm' ∈ applyInPlaceEdit doc p l a b,
      ∃ bm ∈ l, bm'.failedJump = bm.failedJump) ∧
    (∀ l p ln ch tx g, ∀ bm' ∈ toggleBookmark l p ln ch tx g,
      bm' ∈ l ∨ bm'.failedJump = false) := by
  refine ⟨fun bm => ⟨rfl, rfl⟩, fun bm => rfl, ?_, fun doc bm => rfl, ?_, ?_, ?_, ?_⟩
  · intro l bm' hmem
    rcases List.mem_map.mp hmem with ⟨bm, -, rfl⟩
    by_cases h : bm.failedJump <;> simp [h]
  · intro doc p a b c d bm
    simp only [insertionStep, updateBookmarkLineText]
    repeat' split
    all_goals rfl
  · intro doc p a b c d e bm bm' h
    simp only [deletionStep, updateBookmarkLineText] at h
    repeat' split at h
    all_goals (try cases h)
    all_goals rfl
  · intro doc p l a b bm' hmem
    rcases List.mem_map.mp hmem with ⟨bm, hbm, rfl⟩
    refine ⟨bm, hbm, ?_⟩
    unfold updateBookmarkLineText
    split_ifs <;> rfl
  · intro l p ln ch tx g bm' hmem
    simp only [toggleBookmark] at hmem
    cases hf : (l.filter fun bm => decide (bm.fsPath = p)).find? fun bm =>
        decide (bm.lineNumber = ln) && decide (bm.group = g) with
    | some existing =>
      rw [hf] at hmem
      exact Or.inl ((List.erase_sublist existing l).mem hmem)
    | none =>
      rw [hf] at hmem
      have hmem' := (jsSort_perm bmSortLe _).mem_iff.mp hmem
      rcases List.mem_append.mp hmem' with h | h
      · exact Or.inl h
      · rcases List.mem_singleton.mp h with rfl
        exact Or.inr rfl

theorem C8_witness :
    (∀ bm' ∈ actionClearFailedJumpFlags [bmBroken], bm'.failedJump = false) ∧
    (jumpToBookmark bmBroken JumpOutcome.revealError).failedJump = true :=
  ⟨C8_failedJump_amended.2.2.1 [bmBroken], (C8_failedJump_amended.1 bmBroken).1⟩

/-! ## Claim C6 -/

/-- C6 counterexample: `isEmpty` (main.ts 217-219) checks only the group
*name*, not the absence of customization; on a state whose single
default-named group has a customized color and shape, `isEmpty` holds
while the claim's characterization does not, so "exactly when ... with
no customization" is false of the code. -/
theorem C6_counterexample :
    isEmpty sCustomizedEmpty = true ∧
      claimIsEmptyNoCustomization sCustomizedEmpty = false := by
  constructor <;> rfl

/-- C6 (amended): `isEmpty()` holds exactly when the store has zero
bookmarks and exactly one group, that group bearing the default group
*name* (customization of its color/shape/icon is not inspected); and for
every state in which `isEmpty()` holds, a save with a defined target
path never writes the serialized state and deletes the storage artifact
when it exists (deleting the containing directory exactly when it
exists and is then empty). -/
theorem C6_isEmpty_cleanup_amended :
    (∀ s : MainState, isEmpty s = true ↔
      (s.bookmarks = [] ∧ ∃ g, s.groups = [g] ∧ g.name = defaultGroupName)) ∧
    (∀ pr ws (s : MainState) fileExists dirExists dirFileCount,
      isEmpty s = true →
        (∀ env, saveState pr ws s true fileExists dirExists dirFileCount ≠
          SaveOutcome.wrote env) ∧
        (fileExists = true →
          saveState pr ws s true fileExists dirExists dirFileCount =
            SaveOutcome.cleanedUp true (dirExists && decide (dirFileCount = 0)))) := by
  constructor
  · intro s
    unfold isEmpty
    constructor
    · intro h
      match hg : s.groups with
      | [] => rw [hg] at h; simp at h
      | [g] =>
        rw [hg] at h
        simp only [Bool.and_eq_true, decide_eq_true_eq] at h
        refine ⟨List.length_eq_zero.mp h.1, g, rfl, ?_⟩
        simpa using h.2.2
      | g₁ :: g₂ :: t => rw [hg] at h; simp at h
    · rintro ⟨hb, g, hg, hname⟩
      rw [hb, hg]
      simp [hname]
  · intro pr ws s fileExists dirExists dirFileCount hEmpty
    constructor
    · intro env
      unfold saveState
      simp only [Bool.not_true, Bool.false_eq_true, if_false, hEmpty, if_true]
      cases fileExists <;> simp
    · intro hfe
      unfold saveState
      simp [hEmpty, hfe]

theorem C6_witness :
    (isEmpty sCustomizedEmpty = true ↔
      (sCustomizedEmpty.bookmarks = [] ∧
        ∃ g, sCustomizedEmpty.groups = [g] ∧ g.name = defaultGroupName)) ∧
    saveState (fun _ q => q) none sCustomizedEmpty true true true 0 =
      SaveOutcome.cleanedUp true (true && decide ((0 : Nat) = 0)) :=
  ⟨C6_isEmpty_cleanup_amended.1 sCustomizedEmpty,
    (C6_isEmpty_cleanup_amended.2 (fun _ q => q) none sCustomizedEmpty true true 0
      (by rfl)).2 rfl⟩

/-! ## Claim C4 -/

/-- C4: `next()` (and symmetrically `previous()`) never returns a
bookmark flagged `failedJump`; when no entry strictly follows (precedes)
the query position it wraps around to the first (last) non-failed entry
of the group; and when every entry of a non-empty group is flagged
`failedJump` it returns no bookmark and raises the
"no usable bookmarks" warning. -/
theorem C4_navigation_failed_jump :
    (∀ (l : List Bookmark) p q bm, (nextBookmark l p q).1 = some bm →
      bm.failedJump = false) ∧
    (∀ (l : List Bookmark) p q bm, (previousBookmark l p q).1 = some bm →
      bm.failedJump = false) ∧
    (∀ (l : List Bookmark) p q, (∀ bm ∈ l, strictlyFollows p q bm = false) →
      l ≠ [] → (∃ bm ∈ l, bm.failedJump = false) →
      (nextBookmark l p q).1 = l.find? (fun bm => !bm.failedJump) ∧
        ∃ bm, (nextBookmark l p q).1 = some bm) ∧
    (∀ (l : List Bookmark) p q, (∀ bm ∈ l, strictlyPrecedes p q bm = false) →
      l ≠ [] → (∃ bm ∈ l, bm.failedJump = false) →
      (previousBookmark l p q).1 = l.reverse.find? (fun bm => !bm.failedJump) ∧
        ∃ bm, (previousBookmark l p q).1 = some bm) ∧
    (∀ (l : List Bookmark) p q, l ≠ [] → (∀ bm ∈ l, bm.failedJump = true) →
      nextBookmark l p q = (none, true)) ∧
    (∀ (l : List Bookmark) p q, l ≠ [] → (∀ bm ∈ l, bm.failedJump = true) →
      previousBookmark l p q = (none, true)) := by
  refine ⟨?_, ?_, ?_, ?_, ?_, ?_⟩
  · intro l p q bm h
    unfold nextBookmark at h
    cases hf : l.find? (fun bm => !bm.failedJump && strictlyFollows p q bm) with
    | some c =>
      rw [hf] at h
      simp only [Option.some.injEq] at h
      subst h
      have := List.find?_some hf
      simp only [Bool.and_eq_true, Bool.not_eq_true'] at this
      exact this.1
    | none =>
      rw [hf] at h
      split_ifs at h with h1 h2
      cases hw : l.find? (fun bm => !bm.failedJump) with
      | some c =>
        rw [hw] at h
        simp only [Option.some.injEq] at h
        subst h
        simpa using List.find?_some hw
      | none => rw [hw] at h; cases h
  · intro l p q bm h
    unfold previousBookmark at h
    cases hf : l.reverse.find? (fun bm => !bm.failedJump && strictlyPrecedes p q bm) with
    | some c =>
      rw [hf] at h
      simp only [Option.some.injEq] at h
      subst h
      have := List.find?_some hf
      simp only [Bool.and_eq_true, Bool.not_eq_true'] at this
      exact this.1
    | none =>
      rw [hf] at h
      split_ifs at h with h1 h2
      cases hw : l.reverse.find? (fun bm => !bm.failedJump) with
      | some c =>
        rw [hw] at h
        simp only [Option.some.injEq] at h
        subst h
        simpa using List.find?_some hw
      | none => rw [hw] at h; cases h
  · intro l p q hnofollow hne hok
    have hokb : ∃ bm ∈ l, (!bm.failedJump) = true := by
      rcases hok with ⟨bm, hbm, hflag⟩
      exact ⟨bm, hbm, by simp [hflag]⟩
    have hf : l.find? (fun bm => !bm.failedJump && strictlyFollows p q bm) = none := by
      refine List.find?_eq_none.mpr fun bm hbm => ?_
      simp [hnofollow bm hbm]
    have hlen : 0 < l.length := List.length_pos.mpr hne
    have hcount : l.countP (·.failedJump) < l.length := by
      refine countP_lt_length_of_exists_not ?_
      rcases hokb with ⟨bm, hbm, hb⟩
      exact ⟨bm, hbm, by simp_all⟩
    obtain ⟨b, hb⟩ := find?_isSome_of_exists hokb
    unfold nextBookmark
    rw [hf]
    constructor
    · simp [hlen, hcount]
    · exact ⟨b, by simp [hlen, hcount, hb]⟩
  · intro l p q hnoprec hne hok
    have hokb : ∃ bm ∈ l.reverse, (!bm.failedJump) = true := by
      rcases hok with ⟨bm, hbm, hflag⟩
      exact ⟨bm, List.mem_reverse.mpr hbm, by simp [hflag]⟩
    have hf : l.reverse.find? (fun bm => !bm.failedJump && strictlyPrecedes p q bm) = none := by
      refine List.find?_eq_none.mpr fun bm hbm => ?_
      simp [hnoprec bm (List.mem_reverse.mp hbm)]
    have hlen : 0 < l.length := List.length_pos.mpr hne
    have hcount : l.countP (·.failedJump) < l.length := by
      refine countP_lt_length_of_exists_not ?_
      rcases hokb with ⟨bm, hbm, hb⟩
      exact ⟨bm, List.mem_reverse.mp hbm, by simp_all⟩
    obtain ⟨b, hb⟩ := find?_isSome_of_exists hokb
    unfold previousBookmark
    rw [hf]
    constructor
    · simp [hlen, hcount]
    · exact ⟨b, by simp [hlen, hcount, hb]⟩
  · intro l p q hne hall
    have hf : l.find? (fun bm => !bm.failedJump && strictlyFollows p q bm) = none := by
      refine List.find?_eq_none.mpr fun bm hbm => ?_
      simp [hall bm hbm]
    have hlen : 0 < l.length := List.length_pos.mpr hne
    have hcount : l.countP (·.failedJump) = l.length :=
      List.countP_eq_length.mpr fun bm hbm => by simpa using hall bm hbm
    unfold nextBookmark
    rw [hf]
    simp [hlen, hcount]
  · intro l p q hne hall
    have hf : l.reverse.find? (fun bm => !bm.failedJump && strictlyPrecedes p q bm) = none := by
      refine List.find?_eq_none.mpr fun bm hbm => ?_
      simp [hall bm (List.mem_reverse.mp hbm)]
    have hlen : 0 < l.length := List.length_pos.mpr hne
    have hcount : l.countP (·.failedJump) = l.length :=
      List.countP_eq_length.mpr fun bm hbm => by simpa using hall bm hbm
    unfold previousBookmark
    rw [hf]
    simp [hlen, hcount]

theorem C4_witness :
    ((nextBookmark lThreeSample "/w/a.ts" 30).1 =
        lThreeSample.find? (fun bm => !bm.failedJump) ∧
      ∃ bm, (nextBookmark lThreeSample "/w/a.ts" 30).1 = some bm) ∧
    nextBookmark lAllFailedSample "/w/a.ts" 30 = (none, true) :=
  ⟨C4_navigation_failed_jump.2.2.1 lThreeSample "/w/a.ts" 30 (by decide) (by decide)
      ⟨bmOkSample, by decide, rfl⟩,
    C4_navigation_failed_jump.2.2.2.2.1 lAllFailedSample "/w/a.ts" 30 (by decide)
      (by decide)⟩

/-! ## Claims C2 and C3 -/

theorem filterMap_congr_mem {f g : α → Option β} :
    ∀ {l : List α}, (∀ a ∈ l, f a = g a) → l.filterMap f = l.filterMap g
  | [], _ => rfl
  | a :: l, h => by
    have hl := filterMap_congr_mem (fun x hx => h x (List.mem_cons_of_mem a hx))
    simp only [List.filterMap_cons, h a (List.mem_cons_self a l), hl]

/-- `deleteFromLine` only takes the two values named by the spec. -/
theorem deletionDeleteFromLine_eq_or (bookmarks : List Bookmark) (fsPath : String)
    (oldFirstLine : Nat) (firstLinePre : String) :
    deletionDeleteFromLine bookmarks fsPath oldFirstLine firstLinePre = oldFirstLine ∨
      deletionDeleteFromLine bookmarks fsPath oldFirstLine firstLinePre =
        oldFirstLine + 1 := by
  have hdef : deletionDeleteFromLine bookmarks fsPath oldFirstLine firstLinePre =
      if jsTrim firstLinePre = "" ∨
          ((bookmarks.filter fun bm => decide (bm.fsPath = fsPath)).find? fun bm =>
            decide (bm.lineNumber = oldFirstLine)) = none
      then oldFirstLine else oldFirstLine + 1 := rfl
  by_cases hc : jsTrim firstLinePre = "" ∨
      ((bookmarks.filter fun bm => decide (bm.fsPath = fsPath)).find? fun bm =>
        decide (bm.lineNumber = oldFirstLine)) = none
  · exact Or.inl (by rw [hdef, if_pos hc])
  · exact Or.inr (by rw [hdef, if_neg hc])

/-- C2: for a single-file edit with `newLineCount < oldLineCount`, the
deletion branch computes `deleteFromLine` as `firstLine` when the
first-line prefix is whitespace-only or when no bookmark of the file
sits on `firstLine`, else `firstLine + 1`, and with
`shiftFromLine = deleteFromLine + (oldLineCount - newLineCount)` routes
every bookmark of the file per the claim: delete in
`[deleteFromLine, shiftFromLine)`, shift down by the difference at or
after `shiftFromLine`, leave bookmarks above `firstLine` untouched, and
refresh the line text of a shifted or spared bookmark landing inside
the edited span.  In particular the two concrete scenarios of the claim
hold. -/
theorem C2_deletion_branch (doc : TextDocumentModel) (fsPath : String)
    (l : List Bookmark) (oldFirstLine newLineCount oldLineCount : Nat)
    (firstLinePre : String) (h : newLineCount < oldLineCount) :
    (deletionDeleteFromLine l fsPath oldFirstLine firstLinePre =
      if jsTrim firstLinePre = "" ∨
          (∀ bm ∈ l, bm.fsPath = fsPath → bm.lineNumber ≠ oldFirstLine)
      then oldFirstLine else oldFirstLine + 1) ∧
    (applyDeletion doc fsPath l oldFirstLine newLineCount oldLineCount firstLinePre =
      l.filterMap fun bm =>
        if bm.fsPath = fsPath then
          claimDeletionStep doc (oldLineCount - newLineCount)
            (deletionDeleteFromLine l fsPath oldFirstLine firstLinePre)
            (deletionDeleteFromLine l fsPath oldFirstLine firstLinePre +
              (oldLineCount - newLineCount))
            oldFirstLine newLineCount bm
        else some bm) ∧
    (applyDeletion docSample "/f" [bmLine 4, bmLine 5, bmLine 6] 4 0 3 "   " = []) ∧
    (applyDeletion docSample "/f" [bmLine 4, bmLine 5, bmLine 6] 4 0 2 "x" =
      [⟨"/f", 4, 0, none, "code", false, false, gSample⟩]) := by
  refine ⟨?_, ?_, by decide, by decide⟩
  · unfold deletionDeleteFromLine
    refine if_congr (or_congr Iff.rfl ?_) rfl rfl
    constructor
    · intro hnone bm hbm hp
      intro hline
      have := List.find?_eq_none.mp hnone bm
        (List.mem_filter.mpr ⟨hbm, by simp [hp]⟩)
      simp [hline] at this
    · intro hall
      refine List.find?_eq_none.mpr fun bm hbm => ?_
      have hmem := List.mem_filter.mp hbm
      have hp : bm.fsPath = fsPath := by simpa using hmem.2
      simp [hall bm hmem.1 hp]
  · rcases deletionDeleteFromLine_eq_or l fsPath oldFirstLine firstLinePre with hD | hD
    all_goals
      unfold applyDeletion
      rw [hD]
      refine filterMap_congr_mem fun bm _ => ?_
      by_cases hp : bm.fsPath = fsPath
      · simp only [deletionStep, claimDeletionStep, hp, if_true]
        split_ifs <;> first | rfl | omega
      · simp [deletionStep, hp]

/-- The line number produced by the insertion branch's per-bookmark
action: shifted exactly for the edited file's bookmarks at or below
`shiftDownFromLine`. -/
theorem insertionStep_lineNumber (doc : TextDocumentModel) (fsPath : String)
    (a b sdf d : Nat) (bm : Bookmark) :
    (insertionStep doc fsPath a b sdf d bm).lineNumber =
      if bm.fsPath = fsPath ∧ sdf ≤ bm.lineNumber then bm.lineNumber + d
      else bm.lineNumber := by
  simp only [insertionStep, updateBookmarkLineText]
  split_ifs <;> simp_all

/-- C3: for a single-file edit with `newLineCount > oldLineCount`, the
insertion branch sets `shiftDownFromLine` to `firstLine` when the text
before the edit's start column on `firstLine` is whitespace-only and to
`firstLine + 1` otherwise; every bookmark of the file at or below
`shiftDownFromLine` moves down by the difference, no bookmark is
deleted, bookmarks above `shiftDownFromLine` keep their line, and any
bookmark whose possibly-shifted line lies in
`[firstLine, firstLine + newLineCount]` has its line text refreshed.
The two concrete insert-3-lines-at-line-5 scenarios of the claim hold. -/
theorem C3_insertion_branch (doc : TextDocumentModel) (fsPath : String)
    (l : List Bookmark) (oldFirstLine newLineCount oldLineCount : Nat)
    (firstLinePre : String) (h : oldLineCount < newLineCount) :
    (applyInsertion doc fsPath l oldFirstLine newLineCount oldLineCount firstLinePre =
      l.map fun bm =>
        if bm.fsPath = fsPath then
          claimInsertionStep doc (newLineCount - oldLineCount)
            (if jsTrim firstLinePre = "" then oldFirstLine else oldFirstLine + 1)
            oldFirstLine newLineCount bm
        else bm) ∧
    ((applyInsertion doc fsPath l oldFirstLine newLineCount oldLineCount
        firstLinePre).length = l.length) ∧
    (∀ bm : Bookmark,
      bm.lineNumber < (if jsTrim firstLinePre = "" then oldFirstLine else oldFirstLine + 1) →
      (insertionStep doc fsPath oldFirstLine (oldFirstLine + newLineCount)
        (if jsTrim firstLinePre = "" then oldFirstLine else oldFirstLine + 1)
        (newLineCount - oldLineCount) bm).lineNumber = bm.lineNumber) ∧
    (∀ bm : Bookmark, bm.fsPath = fsPath →
      (if jsTrim firstLinePre = "" then oldFirstLine else oldFirstLine + 1) ≤ bm.lineNumber →
      (insertionStep doc fsPath oldFirstLine (oldFirstLine + newLineCount)
        (if jsTrim firstLinePre = "" then oldFirstLine else oldFirstLine + 1)
        (newLineCount - oldLineCount) bm).lineNumber =
        bm.lineNumber + (newLineCount - oldLineCount)) ∧
    (applyInsertion docSample "/f" [bmLine 10] 5 3 0 "   " =
      [{ bmLine 10 with lineNumber := 13 }]) ∧
    (applyInsertion docSample "/f" [bmLine 10] 5 3 0 "x + 1" =
      [{ bmLine 10 with lineNumber := 13 }]) := by
  refine ⟨?_, ?_, ?_, ?_, by decide, by decide⟩
  · unfold applyInsertion
    refine List.map_congr_left fun bm _ => ?_
    by_cases hp : bm.fsPath = fsPath
    · simp only [insertionStep, claimInsertionStep, hp, if_true]
    · simp [insertionStep, hp]
  · unfold applyInsertion
    exact List.length_map _ _
  · intro bm hlt
    rw [insertionStep_lineNumber]
    have hno : ¬ (bm.fsPath = fsPath ∧
        (if jsTrim firstLinePre = "" then oldFirstLine else oldFirstLine + 1) ≤
          bm.lineNumber) := by
      rintro ⟨-, hc⟩; omega
    simp [hno]
  · intro bm hp hge
    rw [insertionStep_lineNumber]
    simp [hp, hge]

theorem C2_witness :
    deletionDeleteFromLine [bmLine 4, bmLine 5, bmLine 6] "/f" 4 "x" =
      if jsTrim "x" = "" ∨
          (∀ bm ∈ [bmLine 4, bmLine 5, bmLine 6], bm.fsPath = "/f" → bm.lineNumber ≠ 4)
      then 4 else 4 + 1 :=
  (C2_deletion_branch docSample "/f" [bmLine 4, bmLine 5, bmLine 6] 4 0 2 "x"
    (by omega)).1

theorem C3_witness :
    (applyInsertion docSample "/f" [bmLine 10] 5 3 0 "   ").length =
      ([bmLine 10] : List Bookmark).length :=
  (C3_insertion_branch docSample "/f" [bmLine 10] 5 3 0 "   " (by omega)).2.1

/-! ## Claim C5 -/

/-- The before-tracking fields of one scan step. -/
theorem nearestStep_before (q : Nat) (st : NearestScan) (bm : Bookmark) :
    ((nearestStep q st bm).nearestBeforeLine = st.nearestBeforeLine ∧
      (nearestStep q st bm).nearestBefore = st.nearestBefore ∧
      ¬ (st.nearestBeforeLine < (bm.lineNumber : Int) ∧ bm.lineNumber ≤ q)) ∨
    ((nearestStep q st bm).nearestBeforeLine = (bm.lineNumber : Int) ∧
      (nearestStep q st bm).nearestBefore = some bm ∧
      st.nearestBeforeLine < (bm.lineNumber : Int) ∧ bm.lineNumber ≤ q) := by
  unfold nearestStep
  by_cases hb : st.nearestBeforeLine < (bm.lineNumber : Int) ∧ bm.lineNumber ≤ q
  · right
    rw [if_pos hb]
    refine ⟨?_, ?_, hb.1, hb.2⟩ <;> (dsimp only; split_ifs <;> rfl)
  · left
    rw [if_neg hb]
    refine ⟨?_, ?_, hb⟩ <;> (dsimp only; split_ifs <;> rfl)

/-- The after-tracking fields of one scan step. -/
theorem nearestStep_after (q : Nat) (st : NearestScan) (bm : Bookmark) :
    ((nearestStep q st bm).nearestAfterLine = st.nearestAfterLine ∧
      (nearestStep q st bm).nearestAfter = st.nearestAfter ∧
      ¬ ((bm.lineNumber : Int) < st.nearestAfterLine ∧ q ≤ bm.lineNumber)) ∨
    ((nearestStep q st bm).nearestAfterLine = (bm.lineNumber : Int) ∧
      (nearestStep q st bm).nearestAfter = some bm ∧
      (bm.lineNumber : Int) < st.nearestAfterLine ∧ q ≤ bm.lineNumber) := by
  unfold nearestStep
  by_cases hb : st.nearestBeforeLine < (bm.lineNumber : Int) ∧ bm.lineNumber ≤ q
  all_goals
    first
      | rw [if_pos hb]
      | rw [if_neg hb]
  all_goals
    dsimp only
    by_cases ha : (bm.lineNumber : Int) < st.nearestAfterLine ∧ q ≤ bm.lineNumber
    · right
      rw [if_pos ha]
      exact ⟨rfl, rfl, ha.1, ha.2⟩
    · left
      rw [if_neg ha]
      exact ⟨rfl, rfl, ha⟩

/-- Characterization of the before-tracking over the whole scan. -/
theorem nearestScan_before_spec (q : Nat) :
    ∀ (l : List Bookmark) (st : NearestScan),
      ((l.foldl (nearestStep q) st).nearestBefore = st.nearestBefore ∧
        (l.foldl (nearestStep q) st).nearestBeforeLine = st.nearestBeforeLine ∧
        ∀ bm ∈ l, bm.lineNumber ≤ q → (bm.lineNumber : Int) ≤ st.nearestBeforeLine) ∨
      (∃ bb ∈ l, (l.foldl (nearestStep q) st).nearestBefore = some bb ∧
        (l.foldl (nearestStep q) st).nearestBeforeLine = (bb.lineNumber : Int) ∧
        bb.lineNumber ≤ q ∧ st.nearestBeforeLine < (bb.lineNumber : Int) ∧
        ∀ bm ∈ l, bm.lineNumber ≤ q → bm.lineNumber ≤ bb.lineNumber)
  | [], st => by simp
  | x :: xs, st => by
    rw [List.foldl_cons]
    rcases nearestStep_before q st x with ⟨hl1, hl2, hno⟩ | ⟨hr1, hr2, hlt, hle⟩
    · rcases nearestScan_before_spec q xs (nearestStep q st x) with
        ⟨g1, g2, g3⟩ | ⟨bb, hbb, g1, g2, g3, g4, g5⟩
      · left
        refine ⟨g1.trans hl2, g2.trans hl1, ?_⟩
        intro bm hbm hbmq
        rcases List.mem_cons.mp hbm with rfl | hbm'
        · omega
        · have := g3 bm hbm' hbmq
          omega
      · right
        refine ⟨bb, List.mem_cons_of_mem x hbb, g1, g2, g3, by omega, ?_⟩
        intro bm hbm hbmq
        rcases List.mem_cons.mp hbm with rfl | hbm'
        · have hx : (bm.lineNumber : Int) ≤ st.nearestBeforeLine := by omega
          omega
        · exact g5 bm hbm' hbmq
    · rcases nearestScan_before_spec q xs (nearestStep q st x) with
        ⟨g1, g2, g3⟩ | ⟨bb, hbb, g1, g2, g3, g4, g5⟩
      · right
        refine ⟨x, List.mem_cons_self x xs, g1.trans hr2, g2.trans hr1, hle, hlt, ?_⟩
        intro bm hbm hbmq
        rcases List.mem_cons.mp hbm with rfl | hbm'
        · exact le_refl _
        · have := g3 bm hbm' hbmq
          rw [hr1] at this
          omega
      · right
        refine ⟨bb, List.mem_cons_of_mem x hbb, g1, g2, g3, by omega, ?_⟩
        intro bm hbm hbmq
        rcases List.mem_cons.mp hbm with rfl | hbm'
        · rw [hr1] at g4
          omega
        · exact g5 bm hbm' hbmq

/-- Characterization of the after-tracking over the whole scan. -/
theorem nearestScan_after_spec (q : Nat) :
    ∀ (l : List Bookmark) (st : NearestScan),
      ((l.foldl (nearestStep q) st).nearestAfter = st.nearestAfter ∧
        (l.foldl (nearestStep q) st).nearestAfterLine = st.nearestAfterLine ∧
        ∀ bm ∈ l, q ≤ bm.lineNumber → st.nearestAfterLine ≤ (bm.lineNumber : Int)) ∨
      (∃ ab ∈ l, (l.foldl (nearestStep q) st).nearestAfter = some ab ∧
        (l.foldl (nearestStep q) st).nearestAfterLine = (ab.lineNumber : Int) ∧
        q ≤ ab.lineNumber ∧ (ab.lineNumber : Int) < st.nearestAfterLine ∧
        ∀ bm ∈ l, q ≤ bm.lineNumber → ab.lineNumber ≤ bm.lineNumber)
  | [], st => by simp
  | x :: xs, st => by
    rw [List.foldl_cons]
    rcases nearestStep_after q st x with ⟨hl1, hl2, hno⟩ | ⟨hr1, hr2, hlt, hle⟩
    · rcases nearestScan_after_spec q xs (nearestStep q st x) with
        ⟨g1, g2, g3⟩ | ⟨ab, hab, g1, g2, g3, g4, g5⟩
      · left
        refine ⟨g1.trans hl2, g2.trans hl1, ?_⟩
        intro bm hbm hbmq
        rcases List.mem_cons.mp hbm with rfl | hbm'
        · omega
        · have := g3 bm hbm' hbmq
          omega
      · right
        refine ⟨ab, List.mem_cons_of_mem x hab, g1, g2, g3, by omega, ?_⟩
        intro bm hbm hbmq
        rcases List.mem_cons.mp hbm with rfl | hbm'
        · have hx : st.nearestAfterLine ≤ (bm.lineNumber : Int) := by omega
          omega
        · exact g5 bm hbm' hbmq
    · rcases nearestScan_after_spec q xs (nearestStep q st x) with
        ⟨g1, g2, g3⟩ | ⟨ab, hab, g1, g2, g3, g4, g5⟩
      · right
        refine ⟨x, List.mem_cons_self x xs, g1.trans hr2, g2.trans hr1, hle, hlt, ?_⟩
        intro bm hbm hbmq
        rcases List.mem_cons.mp hbm with rfl | hbm'
        · exact le_refl _
        · have := g3 bm hbm' hbmq
          rw [hr1] at this
          omega
      · right
        refine ⟨ab, List.mem_cons_of_mem x hab, g1, g2, g3, by omega, ?_⟩
        intro bm hbm hbmq
        rcases List.mem_cons.mp hbm with rfl | hbm'
        · rw [hr1] at g4
          omega
        · exact g5 bm hbm' hbmq

/-- C5 counterexample: with bookmarks at lines 2 and 6 and query line 4
the two distances are equal (2 and 2), and the code (main.ts 1824-1828,
strict `<`) returns the *after* candidate at line 6, not the "before"
candidate at line 2 that the claim requires for ties. -/
theorem C5_counterexample :
    getNearestActiveBookmarkInFile [bmNear2, bmNear6] none 4 = some bmNear6 ∧
      bmNear6.lineNumber = 6 ∧ bmNear2.lineNumber = 2 ∧ bmNear6 ≠ bmNear2 := by
  refine ⟨by decide, rfl, rfl, by decide⟩

/-- C5 (amended): on the group-filtered file list, when both a closest
bookmark at-or-before the query line and a closest one at-or-after exist
the query returns the candidate with the smaller absolute line distance,
and when the two distances are equal it returns the *after* candidate;
when only one side exists it returns that one, and when neither exists
it returns nothing.  (Lines are below `Number.MAX_SAFE_INTEGER`, the
sentinel of the scan.) -/
theorem C5_nearest_amended (fileBookmarkList : List Bookmark)
    (group : Option Group) (q : Nat)
    (hM : ∀ bm ∈ fileBookmarkList, (bm.lineNumber : Int) < maxSafeInteger) :
    ((¬ ∃ bm ∈ nearestFilter fileBookmarkList group, bm.lineNumber ≤ q) →
      (¬ ∃ bm ∈ nearestFilter fileBookmarkList group, q ≤ bm.lineNumber) →
      getNearestActiveBookmarkInFile fileBookmarkList group q = none) ∧
    ((∃ bm ∈ nearestFilter fileBookmarkList group, bm.lineNumber ≤ q) →
      (¬ ∃ bm ∈ nearestFilter fileBookmarkList group, q ≤ bm.lineNumber) →
      ∃ r, getNearestActiveBookmarkInFile fileBookmarkList group q = some r ∧
        r ∈ nearestFilter fileBookmarkList group ∧ r.lineNumber ≤ q ∧
        ∀ bm ∈ nearestFilter fileBookmarkList group, bm.lineNumber ≤ q →
          bm.lineNumber ≤ r.lineNumber) ∧
    ((¬ ∃ bm ∈ nearestFilter fileBookmarkList group, bm.lineNumber ≤ q) →
      (∃ bm ∈ nearestFilter fileBookmarkList group, q ≤ bm.lineNumber) →
      ∃ r, getNearestActiveBookmarkInFile fileBookmarkList group q = some r ∧
        r ∈ nearestFilter fileBookmarkList group ∧ q ≤ r.lineNumber ∧
        ∀ bm ∈ nearestFilter fileBookmarkList group, q ≤ bm.lineNumber →
          r.lineNumber ≤ bm.lineNumber) ∧
    ((∃ bm ∈ nearestFilter fileBookmarkList group, bm.lineNumber ≤ q) →
      (∃ bm ∈ nearestFilter fileBookmarkList group, q ≤ bm.lineNumber) →
      ∃ rb ra, rb ∈ nearestFilter fileBookmarkList group ∧
        ra ∈ nearestFilter fileBookmarkList group ∧
        rb.lineNumber ≤ q ∧ q ≤ ra.lineNumber ∧
        (∀ bm ∈ nearestFilter fileBookmarkList group, bm.lineNumber ≤ q →
          bm.lineNumber ≤ rb.lineNumber) ∧
        (∀ bm ∈ nearestFilter fileBookmarkList group, q ≤ bm.lineNumber →
          ra.lineNumber ≤ bm.lineNumber) ∧
        getNearestActiveBookmarkInFile fileBookmarkList group q =
          (if (q : Int) - (rb.lineNumber : Int) < (ra.lineNumber : Int) - (q : Int)
            then some rb else some ra)) := by
  have hM' : ∀ bm ∈ nearestFilter fileBookmarkList group,
      (bm.lineNumber : Int) < maxSafeInteger := fun bm hbm =>
    hM bm (List.mem_filter.mp hbm).1
  have hbefore := nearestScan_before_spec q (nearestFilter fileBookmarkList group)
    ⟨-1, none, maxSafeInteger, none⟩
  have hafter := nearestScan_after_spec q (nearestFilter fileBookmarkList group)
    ⟨-1, none, maxSafeInteger, none⟩
  unfold getNearestActiveBookmarkInFile
  dsimp only
  rcases hbefore with ⟨b1, b2, b3⟩ | ⟨bb, hbb, b1, b2, b3, b4, b5⟩ <;>
    rcases hafter with ⟨a1, a2, a3⟩ | ⟨ab, hab, a1, a2, a3, a4, a5⟩
  · -- no before update, no after update: no candidate on either side
    refine ⟨fun _ _ => ?_, fun hex _ => ?_, fun _ hex => ?_, fun hex _ => ?_⟩
    · rw [b1, a1]
    · rcases hex with ⟨bm, hbm, hle⟩
      have := b3 bm hbm hle
      simp at this
      omega
    · rcases hex with ⟨bm, hbm, hle⟩
      have := a3 bm hbm hle
      simp only at this
      have := hM' bm hbm
      omega
    · rcases hex with ⟨bm, hbm, hle⟩
      have := b3 bm hbm hle
      simp at this
      omega
  · -- only the after side found a candidate
    refine ⟨fun _ hno => ?_, fun hex _ => ?_, fun _ _ => ?_, fun hex _ => ?_⟩
    · exact absurd ⟨ab, hab, a3⟩ hno
    · rcases hex with ⟨bm, hbm, hle⟩
      have := b3 bm hbm hle
      simp at this
      omega
    · rw [b1, a1]
      exact ⟨ab, rfl, hab, a3, a5⟩
    · rcases hex with ⟨bm, hbm, hle⟩
      have := b3 bm hbm hle
      simp at this
      omega
  · -- only the before side found a candidate
    refine ⟨fun hno _ => ?_, fun _ hno => ?_, fun hno _ => ?_, fun _ hno => ?_⟩
    · exact absurd ⟨bb, hbb, b3⟩ hno
    · rw [b1, a1]
      exact ⟨bb, rfl, hbb, b3, b5⟩
    · exact absurd ⟨bb, hbb, b3⟩ hno
    · rcases hno with ⟨bm, hbm, hle⟩
      have := a3 bm hbm hle
      simp only at this
      have := hM' bm hbm
      omega
  · -- both sides found candidates
    refine ⟨fun hno _ => ?_, fun _ hno => ?_, fun hno _ => ?_, fun _ _ => ?_⟩
    · exact absurd ⟨bb, hbb, b3⟩ hno
    · exact absurd ⟨ab, hab, a3⟩ hno
    · exact absurd ⟨bb, hbb, b3⟩ hno
    · refine ⟨bb, ab, hbb, hab, b3, a3, b5, a5, ?_⟩
      rw [b1, a1, b2, a2]

theorem C5_witness :
    ∃ rb ra, rb ∈ nearestFilter [bmNear2, bmNear6] none ∧
      ra ∈ nearestFilter [bmNear2, bmNear6] none ∧
      rb.lineNumber ≤ 4 ∧ 4 ≤ ra.lineNumber ∧
      (∀ bm ∈ nearestFilter [bmNear2, bmNear6] none, bm.lineNumber ≤ 4 →
        bm.lineNumber ≤ rb.lineNumber) ∧
      (∀ bm ∈ nearestFilter [bmNear2, bmNear6] none, 4 ≤ bm.lineNumber →
        ra.lineNumber ≤ bm.lineNumber) ∧
      getNearestActiveBookmarkInFile [bmNear2, bmNear6] none 4 =
        (if (4 : Int) - (rb.lineNumber : Int) < (ra.lineNumber : Int) - (4 : Int)
          then some rb else some ra) :=
  (C5_nearest_amended [bmNear2, bmNear6] none 4 (by decide)).2.2.2
    ⟨bmNear2, by decide, by decide⟩ ⟨bmNear6, by decide, by decide⟩

/-! ## Claim C9 -/

theorem insertionStep_parts (doc : TextDocumentModel) (p : String)
    (a b sdf d : Nat) (bm : Bookmark) :
    (insertionStep doc p a b sdf d bm).fsPath = bm.fsPath ∧
    (insertionStep doc p a b sdf d bm).lineNumber =
      insLineOf p sdf d bm.fsPath bm.lineNumber ∧
    (insertionStep doc p a b sdf d bm).characterNumber =
      insCharOf doc p a b sdf d bm.fsPath bm.lineNumber bm.characterNumber := by
  by_cases hp : bm.fsPath = p
  · by_cases hs : sdf ≤ bm.lineNumber
    · have hc : bm.fsPath = p ∧ sdf ≤ bm.lineNumber := ⟨hp, hs⟩
      simp only [insertionStep, insLineOf, insCharOf, updateBookmarkLineText,
        if_pos hp, if_pos hc, if_pos hs]
      try dsimp only
      split_ifs <;> refine ⟨?_, ?_, ?_⟩ <;> first | rfl | trivial
    · have hc : ¬ (bm.fsPath = p ∧ sdf ≤ bm.lineNumber) := fun hcc => hs hcc.2
      simp only [insertionStep, insLineOf, insCharOf, updateBookmarkLineText,
        if_pos hp, if_neg hc, if_neg hs]
      try dsimp only
      split_ifs <;> refine ⟨?_, ?_, ?_⟩ <;> first | rfl | trivial
  · have hc : ¬ (bm.fsPath = p ∧ sdf ≤ bm.lineNumber) := fun hcc => hp hcc.1
    simp only [insertionStep, insLineOf, insCharOf, if_neg hp, if_neg hc]
    refine ⟨?_, ?_, ?_⟩ <;> first | rfl | trivial

theorem insLineOf_mono {p path : String} {sdf d line1 line2 : Nat}
    (h : line1 < line2) :
    insLineOf p sdf d path line1 < insLineOf p sdf d path line2 := by
  unfold insLineOf
  split_ifs with h1 h2 h2
  · omega
  · exact absurd ⟨h1.1, le_trans h1.2 (le_of_lt h)⟩ h2
  · omega
  · omega

theorem insCharOf_mono (doc : TextDocumentModel) {p path : String}
    {a b sdf d line ch1 ch2 : Nat} (h : ch1 ≤ ch2) :
    insCharOf doc p a b sdf d path line ch1 ≤ insCharOf doc p a b sdf d path line ch2 := by
  unfold insCharOf
  split_ifs <;> omega

theorem insertionStep_mono (doc : TextDocumentModel) (p : String)
    (a b sdf d : Nat) {x y : Bookmark} (hxy : BookmarkLE x y) :
    BookmarkLE (insertionStep doc p a b sdf d x) (insertionStep doc p a b sdf d y) := by
  obtain ⟨hxP, hxL, hxC⟩ := insertionStep_parts doc p a b sdf d x
  obtain ⟨hyP, hyL, hyC⟩ := insertionStep_parts doc p a b sdf d y
  rcases hxy with hlt | ⟨hpeq, hnum⟩
  · exact Or.inl (by rw [hxP, hyP]; exact hlt)
  · refine Or.inr ⟨by rw [hxP, hyP, hpeq], ?_⟩
    rcases hnum with hl | ⟨hleq, hcle⟩
    · left
      rw [hxL, hyL, hpeq]
      exact insLineOf_mono hl
    · right
      constructor
      · rw [hxL, hyL, hpeq, hleq]
      · rw [hxC, hyC, hpeq, hleq]
        exact insCharOf_mono doc hcle

theorem pairwise_map_mono {f : Bookmark → Bookmark}
    (hf : ∀ {x y : Bookmark}, BookmarkLE x y → BookmarkLE (f x) (f y))
    {l : List Bookmark} (hl : l.Pairwise BookmarkLE) :
    (l.map f).Pairwise BookmarkLE := by
  rw [List.pairwise_map]
  exact hl.imp hf

/-- The insertion branch preserves the canonical order. -/
theorem applyInsertion_pairwise (doc : TextDocumentModel) (p : String)
    (l : List Bookmark) (a n o : Nat) (pre : String)
    (hl : l.Pairwise BookmarkLE) :
    (applyInsertion doc p l a n o pre).Pairwise BookmarkLE := by
  unfold applyInsertion
  exact pairwise_map_mono (fun hxy => insertionStep_mono _ _ _ _ _ _ hxy) hl

theorem deletionStep_parts (doc : TextDocumentModel) (p : String)
    (oldFirstLine newLastLine deleteFromLine shiftFromLine shiftUpBy : Nat)
    (hfl : oldFirstLine ≤ deleteFromLine)
    (hS : shiftFromLine = deleteFromLine + shiftUpBy)
    (bm bm' : Bookmark)
    (h : deletionStep doc p oldFirstLine newLastLine deleteFromLine shiftFromLine
      shiftUpBy bm = some bm') :
    bm'.fsPath = bm.fsPath ∧
    bm'.lineNumber = delLineOf p shiftFromLine shiftUpBy bm.fsPath bm.lineNumber ∧
    bm'.characterNumber = delCharOf doc p oldFirstLine newLastLine shiftFromLine
      shiftUpBy bm.fsPath bm.lineNumber bm.characterNumber ∧
    (bm.fsPath = p →
      ¬ (deleteFromLine ≤ bm.lineNumber ∧ bm.lineNumber < shiftFromLine)) := by
  by_cases hp : bm.fsPath = p
  · by_cases hdel : deleteFromLine ≤ bm.lineNumber ∧ bm.lineNumber < shiftFromLine
    · exfalso
      have hlo : ¬ bm.lineNumber < oldFirstLine := by omega
      simp [deletionStep, hp, hdel, hlo] at h
    · by_cases hlo : bm.lineNumber < oldFirstLine
      · have hs : ¬ (bm.fsPath = p ∧ shiftFromLine ≤ bm.lineNumber) := by
          rintro ⟨-, hc⟩
          omega
        simp only [deletionStep, if_pos hp, if_pos hlo] at h
        simp only [Option.some.injEq] at h
        subst h
        simp only [delLineOf, delCharOf, if_pos hp, if_pos hlo, if_neg hs]
        refine ⟨?_, ?_, ?_, fun _ => hdel⟩ <;> first | rfl | trivial
      · by_cases hs' : shiftFromLine ≤ bm.lineNumber
        · have hs : bm.fsPath = p ∧ shiftFromLine ≤ bm.lineNumber := ⟨hp, hs'⟩
          simp only [deletionStep, if_pos hp, if_neg hlo, if_neg hdel,
            if_pos hs'] at h
          simp only [Option.some.injEq] at h
          simp only [delLineOf, delCharOf, updateBookmarkLineText, if_pos hp,
            if_neg hlo, if_pos hs] at h ⊢
          split_ifs at h with hr
          · subst h
            rw [if_pos hr]
            refine ⟨?_, ?_, ?_, fun _ => hdel⟩ <;> first | rfl | trivial
          · subst h
            rw [if_neg hr]
            refine ⟨?_, ?_, ?_, fun _ => hdel⟩ <;> first | rfl | trivial
        · have hs : ¬ (bm.fsPath = p ∧ shiftFromLine ≤ bm.lineNumber) := by
            rintro ⟨-, hc⟩
            omega
          simp only [deletionStep, if_pos hp, if_neg hlo, if_neg hdel,
            if_neg hs'] at h
          simp only [Option.some.injEq] at h
          simp only [delLineOf, delCharOf, updateBookmarkLineText, if_pos hp,
            if_neg hlo, if_neg hs] at h ⊢
          split_ifs at h with hr
          · subst h
            rw [if_pos hr]
            refine ⟨?_, ?_, ?_, fun _ => hdel⟩ <;> first | rfl | trivial
          · subst h
            rw [if_neg hr]
            refine ⟨?_, ?_, ?_, fun _ => hdel⟩ <;> first | rfl | trivial
  · have hs : ¬ (bm.fsPath = p ∧ shiftFromLine ≤ bm.lineNumber) := fun hc => hp hc.1
    simp only [deletionStep, if_neg hp] at h
    simp only [Option.some.injEq] at h
    subst h
    simp only [delLineOf, delCharOf, if_neg hp, if_neg hs]
    refine ⟨?_, ?_, ?_, fun hc => absurd hc hp⟩ <;> first | rfl | trivial

theorem delLineOf_mono {p path : String}
    {oldFirstLine deleteFromLine shiftFromLine shiftUpBy line1 line2 : Nat}
    (hfl : oldFirstLine ≤ deleteFromLine)
    (hS : shiftFromLine = deleteFromLine + shiftUpBy)
    (hk1 : path = p → ¬ (deleteFromLine ≤ line1 ∧ line1 < shiftFromLine))
    (hk2 : path = p → ¬ (deleteFromLine ≤ line2 ∧ line2 < shiftFromLine))
    (h : line1 < line2) :
    delLineOf p shiftFromLine shiftUpBy path line1 <
      delLineOf p shiftFromLine shiftUpBy path line2 := by
  unfold delLineOf
  by_cases hp : path = p
  · have h1 := hk1 hp
    have h2 := hk2 hp
    simp only [hp, true_and]
    split_ifs <;> omega
  · have hn1 : ¬ (path = p ∧ shiftFromLine ≤ line1) := fun hc => hp hc.1
    have hn2 : ¬ (path = p ∧ shiftFromLine ≤ line2) := fun hc => hp hc.1
    rw [if_neg hn1, if_neg hn2]
    exact h

theorem delCharOf_mono (doc : TextDocumentModel) {p path : String}
    {oldFirstLine newLastLine shiftFromLine shiftUpBy line ch1 ch2 : Nat}
    (h : ch1 ≤ ch2) :
    delCharOf doc p oldFirstLine newLastLine shiftFromLine shiftUpBy path line ch1 ≤
      delCharOf doc p oldFirstLine newLastLine shiftFromLine shiftUpBy path line ch2 := by
  unfold delCharOf
  split_ifs <;> omega

theorem deletionStep_mono (doc : TextDocumentModel) (p : String)
    (oldFirstLine newLastLine deleteFromLine shiftFromLine shiftUpBy : Nat)
    (hfl : oldFirstLine ≤ deleteFromLine)
    (hS : shiftFromLine = deleteFromLine + shiftUpBy)
    {x y x' y' : Bookmark} (hxy : BookmarkLE x y)
    (hx : deletionStep doc p oldFirstLine newLastLine deleteFromLine shiftFromLine
      shiftUpBy x = some x')
    (hy : deletionStep doc p oldFirstLine newLastLine deleteFromLine shiftFromLine
      shiftUpBy y = some y') : BookmarkLE x' y' := by
  obtain ⟨hxP, hxL, hxC, hxK⟩ := deletionStep_parts doc p _ _ _ _ _ hfl hS x x' hx
  obtain ⟨hyP, hyL, hyC, hyK⟩ := deletionStep_parts doc p _ _ _ _ _ hfl hS y y' hy
  rcases hxy with hlt | ⟨hpeq, hnum⟩
  · exact Or.inl (by rw [hxP, hyP]; exact hlt)
  · refine Or.inr ⟨by rw [hxP, hyP, hpeq], ?_⟩
    rcases hnum with hl | ⟨hleq, hcle⟩
    · left
      rw [hxL, hyL, hpeq]
      exact delLineOf_mono hfl hS (fun hpp => hxK (hpeq.trans hpp)) hyK hl
    · right
      constructor
      · rw [hxL, hyL, hpeq, hleq]
      · rw [hxC, hyC, hpeq, hleq]
        exact delCharOf_mono doc hcle

theorem pairwise_filterMap_mono {f : Bookmark → Option Bookmark}
    (hf : ∀ {x y x' y' : Bookmark}, BookmarkLE x y → f x = some x' →
      f y = some y' → BookmarkLE x' y')
    {l : List Bookmark} (hl : l.Pairwise BookmarkLE) :
    (l.filterMap f).Pairwise BookmarkLE := by
  rw [List.pairwise_filterMap]
  refine hl.imp fun hab => ?_
  intro a' ha' b' hb'
  exact hf hab (Option.mem_def.mp ha') (Option.mem_def.mp hb')

/-- The deletion branch preserves the canonical order. -/
theorem applyDeletion_pairwise (doc : TextDocumentModel) (p : String)
    (l : List Bookmark) (a n o : Nat) (pre : String)
    (hl : l.Pairwise BookmarkLE) :
    (applyDeletion doc p l a n o pre).Pairwise BookmarkLE := by
  unfold applyDeletion
  have hfl : a ≤ deletionDeleteFromLine l p a pre := by
    rcases deletionDeleteFromLine_eq_or l p a pre with h | h <;> omega
  exact pairwise_filterMap_mono
    (fun hxy hx hy => deletionStep_mono doc p _ _ _ _ _ hfl rfl hxy hx hy) hl

/-- The in-place branch preserves the canonical order. -/
theorem applyInPlaceEdit_pairwise (doc : TextDocumentModel) (p : String)
    (l : List Bookmark) (a b : Nat) (hl : l.Pairwise BookmarkLE) :
    (applyInPlaceEdit doc p l a b).Pairwise BookmarkLE := by
  unfold applyInPlaceEdit
  refine pairwise_map_mono (fun {x y} hxy => ?_) hl
  rcases hxy with hlt | ⟨hpeq, hnum⟩
  · refine Or.inl ?_
    unfold updateBookmarkLineText
    split_ifs <;> exact hlt
  · refine Or.inr ⟨?_, ?_⟩
    · unfold updateBookmarkLineText
      split_ifs <;> exact hpeq
    · rcases hnum with hl' | ⟨hleq, hcle⟩
      · left
        unfold updateBookmarkLineText
        split_ifs <;> exact hl'
      · unfold updateBookmarkLineText
        split_ifs with h1 h2 h2
        · right
          refine ⟨hleq, ?_⟩
          dsimp only
          rw [hleq]
          omega
        · exfalso
          rcases h1 with ⟨h1a, h1b, h1c⟩
          exact h2 ⟨hpeq ▸ h1a, hleq ▸ h1b, hleq ▸ h1c⟩
        · exfalso
          rcases h2 with ⟨h2a, h2b, h2c⟩
          exact h1 ⟨hpeq ▸ h2a, hleq ▸ h2b, hleq ▸ h2c⟩
        · exact Or.inr ⟨hleq, hcle⟩

theorem bmSortLe_total (a b : Bookmark) :
    bmSortLe a b = true ∨ bmSortLe b a = true := by
  rcases BookmarkLE_total a b with h | h
  · exact Or.inl ((bmSortLe_iff_BookmarkLE a b).mpr h)
  · exact Or.inr ((bmSortLe_iff_BookmarkLE b a).mpr h)

/-- Sorting with the source's comparator yields a canonically ordered
list. -/
theorem jsSort_bm_pairwise (l : List Bookmark) :
    (jsSort bmSortLe l).Pairwise BookmarkLE :=
  jsSort_pairwise (fun a b hab => (bmSortLe_iff_BookmarkLE a b).mp hab)
    (fun _ _ _ => BookmarkLE_trans) bmSortLe_total l

theorem toggleBookmark_pairwise (l : List Bookmark) (p : String)
    (ln ch : Nat) (tx : String) (g : Group) (hl : l.Pairwise BookmarkLE) :
    (toggleBookmark l p ln ch tx g).Pairwise BookmarkLE := by
  simp only [toggleBookmark]
  cases hf : (l.filter fun bm => decide (bm.fsPath = p)).find? fun bm =>
      decide (bm.lineNumber = ln) && decide (bm.group = g) with
  | some existing =>
    exact List.Pairwise.sublist (List.erase_sublist existing l) hl
  | none =>
    exact jsSort_bm_pairwise _

/-- C9: the bookmark collection is kept in the canonical total order —
`fsPath` lexicographic, then line, then column (first conjunct: the
source comparator realizes exactly that order) — after every operation:
toggles re-sort after inserting, removal preserves order, the three
edit-reconciliation branches (which never re-sort) preserve sortedness
because shifts are uniform over a suffix of a file's lines, and moving
bookmarks between groups re-sorts. -/
theorem C9_canonical_order_invariant :
    (∀ a b : Bookmark, bmSortLe a b = true ↔ BookmarkLE a b) ∧
    (∀ (l : List Bookmark) p ln ch tx g, l.Pairwise BookmarkLE →
      (toggleBookmark l p ln ch tx g).Pairwise BookmarkLE) ∧
    (∀ (l : List Bookmark) bm, l.Pairwise BookmarkLE →
      (deleteBookmark l bm).Pairwise BookmarkLE) ∧
    (∀ doc p (l : List Bookmark) a b, l.Pairwise BookmarkLE →
      (applyInPlaceEdit doc p l a b).Pairwise BookmarkLE) ∧
    (∀ doc p (l : List Bookmark) a n o pre, l.Pairwise BookmarkLE →
      (applyInsertion doc p l a n o pre).Pairwise BookmarkLE) ∧
    (∀ doc p (l : List Bookmark) a n o pre, l.Pairwise BookmarkLE →
      (applyDeletion doc p l a n o pre).Pairwise BookmarkLE) ∧
    (∀ (l sel : List Bookmark) dst,
      (moveBookmarksBetween l sel dst).Pairwise BookmarkLE) := by
  refine ⟨bmSortLe_iff_BookmarkLE, toggleBookmark_pairwise, ?_, ?_, ?_, ?_, ?_⟩
  · intro l bm hl
    exact List.Pairwise.sublist (List.erase_sublist bm l) hl
  · intro doc p l a b hl
    exact applyInPlaceEdit_pairwise doc p l a b hl
  · intro doc p l a n o pre hl
    exact applyInsertion_pairwise doc p l a n o pre hl
  · intro doc p l a n o pre hl
    exact applyDeletion_pairwise doc p l a n o pre hl
  · intro l sel dst
    exact jsSort_bm_pairwise _

theorem C9_witness :
    (toggleBookmark [bmLine 4, bmLine 6] "/f" 5 0 "mid" gSample).Pairwise
      BookmarkLE ∧
    (applyDeletion docSample "/f" [bmLine 4, bmLine 5, bmLine 6] 4 0 2
      "x").Pairwise BookmarkLE :=
  ⟨C9_canonical_order_invariant.2.1 [bmLine 4, bmLine 6] "/f" 5 0 "mid" gSample
      (by decide),
    C9_canonical_order_invariant.2.2.2.2.2.1 docSample "/f"
      [bmLine 4, bmLine 5, bmLine 6] 4 0 2 "x" (by decide)⟩

/-! ## Claim C7 -/

theorem dedupExcl_congr : ∀ {vs ks1 ks2 : List String},
    (∀ x, x ∈ ks1 ↔ x ∈ ks2) → dedupExcl ks1 vs = dedupExcl ks2 vs
  | [], _, _, _ => rfl
  | v :: vs, ks1, ks2, h => by
    unfold dedupExcl
    by_cases hv : v ∈ ks1
    · rw [if_pos hv, if_pos ((h v).mp hv)]
      exact dedupExcl_congr h
    · rw [if_neg hv, if_neg (fun hc => hv ((h v).mpr hc))]
      refine congrArg (v :: ·) (dedupExcl_congr ?_)
      intro x
      simp only [List.mem_cons]
      exact or_congr Iff.rfl (h x)

theorem mem_dedupExcl : ∀ {vs ks : List String} {x : String},
    x ∈ dedupExcl ks vs ↔ x ∈ vs ∧ x ∉ ks
  | [], ks, x => by simp [dedupExcl]
  | v :: vs, ks, x => by
    unfold dedupExcl
    by_cases hv : v ∈ ks
    · rw [if_pos hv, mem_dedupExcl]
      simp only [List.mem_cons]
      constructor
      · rintro ⟨hx, hk⟩; exact ⟨Or.inr hx, hk⟩
      · rintro ⟨hx | hx, hk⟩
        · exact absurd (hx ▸ hv) hk
        · exact ⟨hx, hk⟩
    · rw [if_neg hv]
      simp only [List.mem_cons, mem_dedupExcl]
      constructor
      · rintro (rfl | ⟨hx, hk⟩)
        · exact ⟨Or.inl rfl, hv⟩
        · exact ⟨Or.inr hx, fun hc => hk (Or.inr hc)⟩
      · rintro ⟨rfl | hx, hk⟩
        · exact Or.inl rfl
        · by_cases hxv : x = v
          · exact Or.inl hxv
          · exact Or.inr ⟨hx, by simp [List.mem_cons, hxv, hk]⟩

theorem dedupExcl_nodup : ∀ (vs ks : List String), (dedupExcl ks vs).Nodup
  | [], _ => List.nodup_nil
  | v :: vs, ks => by
    unfold dedupExcl
    by_cases hv : v ∈ ks
    · rw [if_pos hv]
      exact dedupExcl_nodup vs ks
    · rw [if_neg hv]
      refine List.nodup_cons.mpr ⟨?_, dedupExcl_nodup vs (v :: ks)⟩
      intro hc
      exact (mem_dedupExcl.mp hc).2 (List.mem_cons_self v ks)

theorem find?_congr_mem {p q : α → Bool} :
    ∀ {l : List α}, (∀ x ∈ l, p x = q x) → l.find? p = l.find? q
  | [], _ => rfl
  | a :: l, h => by
    rw [List.find?_cons, List.find?_cons, h a (List.mem_cons_self a l)]
    cases q a
    · exact find?_congr_mem fun x hx => h x (List.mem_cons_of_mem a hx)
    · rfl

theorem find?_filter_of_imp {P Q : α → Bool} :
    ∀ {l : List α}, (∀ x ∈ l, P x = true → Q x = true) →
      (l.filter Q).find? P = l.find? P
  | [], _ => rfl
  | a :: l, h => by
    by_cases hq : Q a = true
    · rw [List.filter_cons_of_pos hq, List.find?_cons, List.find?_cons]
      cases hp : P a
      · exact find?_filter_of_imp fun x hx => h x (List.mem_cons_of_mem a hx)
      · rfl
    · rw [List.filter_cons_of_neg (by simpa using hq)]
      have hp : P a = false := by
        cases hP : P a
        · rfl
        · exact absurd (h a (List.mem_cons_self a l) hP) hq
      rw [List.find?_cons, hp]
      exact find?_filter_of_imp fun x hx => h x (List.mem_cons_of_mem a hx)

theorem dedupExcl_find? : ∀ (vs ks : List String) (P : String → Bool),
    (dedupExcl ks vs).find? P = (vs.filter fun v => !decide (v ∈ ks)).find? P
  | [], _, _ => rfl
  | v :: vs, ks, P => by
    unfold dedupExcl
    by_cases hv : v ∈ ks
    · rw [if_pos hv, List.filter_cons_of_neg (by simp [hv])]
      exact dedupExcl_find? vs ks P
    · rw [if_neg hv, List.filter_cons_of_pos (by simp [hv])]
      rw [List.find?_cons, List.find?_cons]
      cases hp : P v
      · rw [dedupExcl_find? vs (v :: ks) P]
        have h1 : (vs.filter fun u => !decide (u ∈ v :: ks)) =
            (vs.filter fun u => !decide (u ∈ ks)).filter fun u => decide (u ≠ v) := by
          rw [List.filter_filter]
          refine List.filter_congr fun x _ => ?_
          by_cases hxv : x = v <;> by_cases hxk : x ∈ ks <;>
            simp [hxv, hxk, List.mem_cons]
        rw [h1]
        refine find?_filter_of_imp fun x _ hx => ?_
        simp only [decide_eq_true_eq]
        intro hxv
        rw [hxv, hp] at hx
        cases hx
      · rfl

theorem find?_pair_key (P : String → Bool) :
    ∀ (m : List (String × Nat)),
      ((m.find? fun q => P q.1).map (·.1)) = (m.map (·.1)).find? P
  | [] => rfl
  | q :: m => by
    rw [List.map_cons, List.find?_cons, List.find?_cons]
    cases hp : P q.1
    · exact find?_pair_key P m
    · rfl

theorem find?_of_split {p : α → Bool} (q : α) (hq : p q = true) :
    ∀ (pre post : List α), (∀ r ∈ pre, p r = false) →
      (pre ++ q :: post).find? p = some q
  | [], post, _ => by simp [List.find?_cons, hq]
  | r :: pre, post, h => by
    rw [List.cons_append, List.find?_cons, h r (List.mem_cons_self r pre)]
    exact find?_of_split q hq pre post fun x hx => h x (List.mem_cons_of_mem r hx)

/-- The minimum scan keeps the accumulator when nothing is smaller, and
otherwise lands on the first entry achieving the minimum. -/
theorem leastUsedScan_spec : ∀ (m : List (String × Nat)) (acc : Int × String),
    (leastUsedScan m acc = acc ∧ ∀ q ∈ m, acc.1 ≤ (q.2 : Int)) ∨
    (∃ pre q post, m = pre ++ q :: post ∧
      leastUsedScan m acc = ((q.2 : Int), q.1) ∧ (q.2 : Int) < acc.1 ∧
      (∀ r ∈ pre, (q.2 : Int) < (r.2 : Int)) ∧
      (∀ r ∈ m, (q.2 : Int) ≤ (r.2 : Int)))
  | [], acc => Or.inl ⟨rfl, by simp⟩
  | x :: m, acc => by
    have hstep : leastUsedScan (x :: m) acc =
        leastUsedScan m (if acc.1 > (x.2 : Int) then ((x.2 : Int), x.1) else acc) := by
      unfold leastUsedScan
      rw [List.foldl_cons]
    by_cases hx : acc.1 > (x.2 : Int)
    · rw [if_pos hx] at hstep
      rcases leastUsedScan_spec m ((x.2 : Int), x.1) with ⟨h1, h2⟩ |
        ⟨pre, q, post, hm, hscan, hlt, hpre, hall⟩
      · right
        refine ⟨[], x, m, rfl, by rw [hstep, h1], hx, by simp, ?_⟩
        intro r hr
        rcases List.mem_cons.mp hr with rfl | hr'
        · exact le_refl _
        · exact h2 r hr'
      · right
        refine ⟨x :: pre, q, post, by rw [hm, List.cons_append], by rw [hstep, hscan], by omega, ?_, ?_⟩
        · intro r hr
          rcases List.mem_cons.mp hr with rfl | hr'
          · omega
          · exact hpre r hr'
        · intro r hr
          rcases List.mem_cons.mp hr with rfl | hr'
          · omega
          · exact hall r (hm ▸ hr')
    · rw [if_neg hx] at hstep
      rcases leastUsedScan_spec m acc with ⟨h1, h2⟩ |
        ⟨pre, q, post, hm, hscan, hlt, hpre, hall⟩
      · left
        refine ⟨by rw [hstep, h1], ?_⟩
        intro r hr
        rcases List.mem_cons.mp hr with rfl | hr'
        · omega
        · exact h2 r hr'
      · right
        refine ⟨x :: pre, q, post, by rw [hm, List.cons_append], by rw [hstep, hscan], hlt, ?_, ?_⟩
        · intro r hr
          rcases List.mem_cons.mp hr with rfl | hr'
          · omega
          · exact hpre r hr'
        · intro r hr
          rcases List.mem_cons.mp hr with rfl | hr'
          · omega
          · exact hall r (hm ▸ hr')

theorem mapSet_key_mem (m : List (String × Nat)) (k : String) :
    (m.any fun p => decide (p.1 = k)) = true ↔ k ∈ m.map (·.1) := by
  rw [List.any_eq_true]
  constructor
  · rintro ⟨p, hp, hdec⟩
    exact List.mem_map.mpr ⟨p, hp, by simpa using hdec⟩
  · rintro hk
    rcases List.mem_map.mp hk with ⟨p, hp, hke⟩
    exact ⟨p, hp, by simp [hke]⟩

theorem initUsages_struct : ∀ (cs : List (String × String)) (m : List (String × Nat)),
    (∀ q ∈ m, q.2 = 0) →
    cs.foldl (fun acc kv => mapSet acc kv.2 0) m =
      m ++ (dedupExcl (m.map (·.1)) (cs.map (·.2))).map (fun k => (k, 0))
  | [], m, _ => by simp [dedupExcl]
  | c :: cs, m, hm => by
    rw [List.foldl_cons, List.map_cons]
    by_cases hc : c.2 ∈ m.map (·.1)
    · have hset : mapSet m c.2 0 = m := by
        unfold mapSet
        rw [if_pos ((mapSet_key_mem m c.2).mpr hc)]
        refine (List.map_congr_left fun q hq => ?_).trans (List.map_id m)
        by_cases hqc : q.1 = c.2
        · rw [if_pos hqc, ← hqc, ← hm q hq]
          exact Prod.mk.eta
        · rw [if_neg hqc]
          rfl
      rw [hset, initUsages_struct cs m hm]
      have hd : dedupExcl (m.map (·.1)) (c.2 :: cs.map (·.2)) =
          dedupExcl (m.map (·.1)) (cs.map (·.2)) := by
        simp only [dedupExcl]
        rw [if_pos hc]
      rw [hd]
    · have hset : mapSet m c.2 0 = m ++ [(c.2, 0)] := by
        unfold mapSet
        rw [if_neg (fun hcc => hc ((mapSet_key_mem m c.2).mp hcc))]
      have hm' : ∀ q ∈ m ++ [(c.2, 0)], q.2 = 0 := by
        intro q hq
        rcases List.mem_append.mp hq with hq | hq
        · exact hm q hq
        · rcases List.mem_singleton.mp hq with rfl
          rfl
      rw [hset, initUsages_struct cs (m ++ [(c.2, 0)]) hm']
      have hd : dedupExcl (m.map (·.1)) (c.2 :: cs.map (·.2)) =
          c.2 :: dedupExcl (c.2 :: m.map (·.1)) (cs.map (·.2)) := by
        simp only [dedupExcl]
        rw [if_neg hc]
      have hkeys : List.map (fun q : String × Nat => q.1) (m ++ [(c.2, 0)]) =
          m.map (·.1) ++ [c.2] := by
        rw [List.map_append]
        rfl
      have hcongr : dedupExcl (m.map (·.1) ++ [c.2]) (cs.map (·.2)) =
          dedupExcl (c.2 :: m.map (·.1)) (cs.map (·.2)) := by
        apply dedupExcl_congr
        intro x
        simp [List.mem_append, List.mem_cons, or_comm]
      rw [hd, hkeys, hcongr]
      simp

theorem incUsages_struct : ∀ (gs : List Group) (m : List (String × Nat)),
    (m.map (·.1)).Nodup →
    gs.foldl (fun acc g =>
      if (mapGet acc g.getColor).isSome
      then mapSet acc g.getColor ((mapGet acc g.getColor).getD 0 + 1) else acc) m =
      m.map (fun q => (q.1, q.2 + gs.countP fun g => decide (g.getColor = q.1)))
  | [], m, _ => by
    simp only [List.foldl_nil, List.countP_nil, Nat.add_zero]
    exact ((List.map_congr_left fun q _ => rfl).trans (List.map_id m)).symm
  | g :: gs, m, hnd => by
    rw [List.foldl_cons]
    have hstep : (if (mapGet m g.getColor).isSome
        then mapSet m g.getColor ((mapGet m g.getColor).getD 0 + 1) else m) =
        m.map (fun q => (q.1, q.2 + if g.getColor = q.1 then 1 else 0)) := by
      cases hg : mapGet m g.getColor with
      | none =>
        have hnone : ∀ q ∈ m, ¬ q.1 = g.getColor := by
          intro q hq hqc
          have hfind : m.find? (fun p => decide (p.1 = g.getColor)) = none := by
            simpa [mapGet, Option.map_eq_none'] using hg
          have := List.find?_eq_none.mp hfind q hq
          simp [hqc] at this
        simp only [Option.isSome_none, Bool.false_eq_true, if_false]
        refine (((List.map_congr_left fun q hq => ?_).trans (List.map_id m))).symm
        have hne : ¬ g.getColor = q.1 := fun hc => hnone q hq hc.symm
        rw [if_neg hne, Nat.add_zero]
        exact Prod.mk.eta
      | some v =>
        have hmg : (m.find? fun p => decide (p.1 = g.getColor)).map (·.2) = some v := hg
        obtain ⟨e, hfind, hv⟩ := Option.map_eq_some'.mp hmg
        have he_mem : e ∈ m := List.mem_of_find?_eq_some hfind
        have he_key : e.1 = g.getColor := by simpa using List.find?_some hfind
        have huniq : ∀ q ∈ m, q.1 = g.getColor → q = e := by
          intro q hq hqc
          exact List.inj_on_of_nodup_map hnd hq he_mem (by rw [hqc, he_key])
        simp only [Option.isSome_some, if_true, Option.getD_some]
        unfold mapSet
        rw [if_pos ((mapSet_key_mem m g.getColor).mpr
          (List.mem_map.mpr ⟨e, he_mem, he_key⟩))]
        refine List.map_congr_left fun q hq => ?_
        by_cases hqc : q.1 = g.getColor
        · rw [if_pos hqc, if_pos hqc.symm]
          have := huniq q hq hqc
          subst this
          rw [← hv, ← hqc]
        · rw [if_neg hqc, if_neg (fun hc => hqc hc.symm), Nat.add_zero]
    have hkeys : ((m.map fun q =>
        (q.1, q.2 + if g.getColor = q.1 then 1 else 0)).map (·.1)).Nodup := by
      rw [List.map_map]
      exact hnd
    rw [hstep, incUsages_struct gs _ hkeys, List.map_map]
    refine List.map_congr_left fun q _ => ?_
    simp only [Function.comp_apply, List.countP_cons, decide_eq_true_eq]
    refine Prod.ext rfl ?_
    dsimp only
    split_ifs <;> omega

theorem colorUsages_eq (colors : List (String × String)) (groups : List Group) :
    colorUsages colors groups =
      (dedupExcl [] (colors.map (·.2))).map
        (fun k => (k, groups.countP fun g => decide (g.getColor = k))) := by
  unfold colorUsages
  rw [initUsages_struct colors [] (by simp)]
  simp only [List.nil_append, List.map_nil]
  have hnd : (((dedupExcl [] (colors.map (·.2))).map
      (fun k => (k, 0))).map (·.1)).Nodup := by
    have h1 : ((dedupExcl [] (colors.map (·.2))).map
        (fun k => (k, 0))).map (·.1) = dedupExcl [] (colors.map (·.2)) := by
      rw [List.map_map]
      exact (List.map_congr_left fun k _ => rfl).trans (List.map_id _)
    rw [h1]
    exact dedupExcl_nodup (colors.map (·.2)) []
  rw [incUsages_struct groups _ hnd, List.map_map]
  refine List.map_congr_left fun k _ => ?_
  simp

theorem map_fst_pair (cnt : String → Nat) (l : List String) :
    (l.map fun k => (k, cnt k)).map (·.1) = l := by
  rw [List.map_map]
  exact (List.map_congr_left fun k _ => rfl).trans (List.map_id _)

theorem usages_find?_key (P : String → Bool) (cnt : String → Nat) (l : List String)
    (q : String × Nat)
    (h : (l.map fun k => (k, cnt k)).find? (fun p => P p.1) = some q) :
    l.find? P = some q.1 := by
  have h5 := find?_pair_key P (l.map fun k => (k, cnt k))
  rw [h, map_fst_pair] at h5
  exact h5.symm

theorem ensureGroup_existing (colors : List (String × String)) (shape : String)
    (groups : List Group) (name : String) (hex : ∃ g ∈ groups, g.name = name) :
    (ensureGroup colors shape groups name).1 = groups ∧
    (ensureGroup colors shape groups name).2 ∈ groups ∧
    (ensureGroup colors shape groups name).2.name = name := by
  obtain ⟨g0, hg0, hname⟩ := hex
  cases hfind : groups.find? fun g => decide (g.name = name) with
  | none =>
    exact absurd (List.find?_eq_none.mp hfind g0 hg0) (by simp [hname])
  | some g =>
    refine ⟨?_, ?_, ?_⟩
    · simp only [ensureGroup, hfind]
    · simp only [ensureGroup, hfind]
      exact List.mem_of_find?_eq_some hfind
    · simp only [ensureGroup, hfind]
      simpa using List.find?_some hfind

theorem ensureGroup_has_name (colors : List (String × String)) (shape : String)
    (groups : List Group) (name : String) :
    ∃ g ∈ (ensureGroup colors shape groups name).1, g.name = name := by
  cases hfind : groups.find? fun g => decide (g.name = name) with
  | some g =>
    refine ⟨g, ?_, ?_⟩
    · simp only [ensureGroup, hfind]
      exact List.mem_of_find?_eq_some hfind
    · simpa using List.find?_some hfind
  | none =>
    refine ⟨Group.make name (getLeastUsedColor colors groups) shape name, ?_, rfl⟩
    simp only [ensureGroup, hfind]
    have hperm := jsSort_perm (fun a b => decide (localeCompareInt a.name b.name ≤ 0))
      (groups ++ [Group.make name (getLeastUsedColor colors groups) shape name])
    exact hperm.mem_iff.mpr (List.mem_append_right _ (List.mem_singleton.mpr rfl))

theorem ensureGroup_new_color (colors : List (String × String)) (shape : String)
    (groups : List Group) (name : String)
    (hnex : ¬ ∃ g ∈ groups, g.name = name) :
    (ensureGroup colors shape groups name).2.color =
      getLeastUsedColor colors groups := by
  have hfind : groups.find? (fun g => decide (g.name = name)) = none := by
    rw [List.find?_eq_none]
    intro g hg hdec
    exact hnex ⟨g, hg, by simpa using hdec⟩
  simp only [ensureGroup, hfind]
  rfl

theorem getLeastUsedColor_min (colors : List (String × String)) (groups : List Group)
    (hc : colors ≠ []) (hlen : (groups.length : Int) < maxSafeInteger) :
    ∃ mv : Nat,
      (∀ c ∈ colors.map (·.2),
        mv ≤ groups.countP fun g => decide (g.getColor = c)) ∧
      ((colors.map (·.2)).find? fun c =>
          decide ((groups.countP fun g => decide (g.getColor = c)) = mv)) =
        some (getLeastUsedColor colors groups) := by
  have hlc : ¬ colors.length < 1 := by
    have := List.length_pos.mpr hc
    omega
  rcases leastUsedScan_spec (colorUsages colors groups) (maxSafeInteger, "") with
    ⟨h1, h2⟩ | ⟨pre, q, post, hm, hscan, hlt, hpre, hall⟩
  · exfalso
    rcases List.exists_mem_of_ne_nil colors hc with ⟨c0, hc0⟩
    have hv0 : c0.2 ∈ colors.map (·.2) := List.mem_map.mpr ⟨c0, hc0, rfl⟩
    have hd0 : c0.2 ∈ dedupExcl [] (colors.map (·.2)) :=
      mem_dedupExcl.mpr ⟨hv0, by simp⟩
    have hq0 : (c0.2, groups.countP fun g => decide (g.getColor = c0.2)) ∈
        colorUsages colors groups := by
      rw [colorUsages_eq]
      exact List.mem_map.mpr ⟨c0.2, hd0, rfl⟩
    have h3 := h2 _ hq0
    have h4 : ((groups.countP fun g => decide (g.getColor = c0.2)) : Int) ≤
        (groups.length : Int) := by
      exact_mod_cast List.countP_le_length _
    exact absurd hlen (not_lt.mpr (h3.trans h4))
  · rw [colorUsages_eq] at hm hall
    have hqmem : q ∈ (dedupExcl [] (colors.map (·.2))).map
        (fun k => (k, groups.countP fun g => decide (g.getColor = k))) := by
      rw [hm]
      exact List.mem_append_right _ (List.mem_cons_self _ _)
    obtain ⟨k, hkd, hkq⟩ := List.mem_map.mp hqmem
    refine ⟨groups.countP fun g => decide (g.getColor = k), ?_, ?_⟩
    · intro c hcv
      have hdc : c ∈ dedupExcl [] (colors.map (·.2)) :=
        mem_dedupExcl.mpr ⟨hcv, by simp⟩
      have h8 := hall _ (List.mem_map.mpr ⟨c, hdc, rfl⟩)
      rw [← hkq] at h8
      exact_mod_cast h8
    · have hresult : getLeastUsedColor colors groups = q.1 := by
        unfold getLeastUsedColor
        rw [if_neg hlc, hscan]
      have hpref : ∀ r ∈ pre,
          (fun p : String × Nat =>
            decide ((groups.countP fun g => decide (g.getColor = p.1)) =
              groups.countP fun g => decide (g.getColor = k))) r = false := by
        intro r hr
        have hrU : r ∈ (dedupExcl [] (colors.map (·.2))).map
            (fun k => (k, groups.countP fun g => decide (g.getColor = k))) := by
          rw [hm]
          exact List.mem_append_left _ hr
        obtain ⟨k', hk', rfl⟩ := List.mem_map.mp hrU
        have hlt' := hpre _ hr
        rw [← hkq] at hlt'
        dsimp only at hlt' ⊢
        simp only [decide_eq_false_iff_not]
        intro he
        rw [he] at hlt'
        exact lt_irrefl _ hlt'
      have hfindU : ((dedupExcl [] (colors.map (·.2))).map
          (fun k => (k, groups.countP fun g => decide (g.getColor = k)))).find?
            (fun p => decide ((groups.countP fun g => decide (g.getColor = p.1)) =
              groups.countP fun g => decide (g.getColor = k))) = some q := by
        rw [hm, ← hkq]
        exact find?_of_split _ (by simp) pre post hpref
      have hkey := usages_find?_key
        (fun c => decide ((groups.countP fun g => decide (g.getColor = c)) =
          groups.countP fun g => decide (g.getColor = k)))
        (fun c => groups.countP fun g => decide (g.getColor = c))
        (dedupExcl [] (colors.map (·.2))) q hfindU
      have h6 := dedupExcl_find? (colors.map (·.2)) []
        (fun c => decide ((groups.countP fun g => decide (g.getColor = c)) =
          groups.countP fun g => decide (g.getColor = k)))
      have h7 : ((colors.map (·.2)).filter fun v => !decide (v ∈ ([] : List String))) =
          colors.map (·.2) := by simp
      rw [h7] at h6
      rw [h6] at hkey
      rw [hresult]
      exact hkey

/-- **C7**: `ensureGroup` is an idempotent get-or-create: looking up an
existing name returns that group and leaves the group list unchanged (so a
repeated call is a no-op); a newly created group receives the configured
color whose usage count over the existing groups is minimal, ties broken
by the first such color in configured iteration order, and the fixed
fallback color when no colors are configured; concretely, with unused
colors A then B, the first creation takes A and the next takes B. -/
theorem C7_ensureGroup_least_used_color :
    (∀ (colors : List (String × String)) (shape : String) (groups : List Group)
        (name : String), (∃ g ∈ groups, g.name = name) →
      (ensureGroup colors shape groups name).1 = groups ∧
      (ensureGroup colors shape groups name).2 ∈ groups ∧
      (ensureGroup colors shape groups name).2.name = name) ∧
    (∀ (colors : List (String × String)) (shape : String) (groups : List Group)
        (name : String),
      (ensureGroup colors shape (ensureGroup colors shape groups name).1 name).1 =
        (ensureGroup colors shape groups name).1) ∧
    (∀ groups : List Group, getLeastUsedColor [] groups = fallbackColor) ∧
    (∀ (colors : List (String × String)) (shape : String) (groups : List Group)
        (name : String), (¬ ∃ g ∈ groups, g.name = name) →
      (ensureGroup colors shape groups name).2.color =
        getLeastUsedColor colors groups) ∧
    (∀ (colors : List (String × String)) (groups : List Group), colors ≠ [] →
      (groups.length : Int) < maxSafeInteger →
      ∃ mv : Nat,
        (∀ c ∈ colors.map (·.2),
          mv ≤ groups.countP fun g => decide (g.getColor = c)) ∧
        ((colors.map (·.2)).find? fun c =>
            decide ((groups.countP fun g => decide (g.getColor = c)) = mv)) =
          some (getLeastUsedColor colors groups)) ∧
    ((ensureGroup [("a", "A"), ("b", "B")] defaultShapeValue [] "g1").2.color = "A" ∧
      (ensureGroup [("a", "A"), ("b", "B")] defaultShapeValue
        (ensureGroup [("a", "A"), ("b", "B")] defaultShapeValue [] "g1").1
        "g2").2.color = "B") := by
  refine ⟨?_, ?_, ?_, ?_, ?_, ?_⟩
  · exact fun colors shape groups name hex =>
      ensureGroup_existing colors shape groups name hex
  · intro colors shape groups name
    exact (ensureGroup_existing colors shape _ name
      (ensureGroup_has_name colors shape groups name)).1
  · intro groups
    rfl
  · exact fun colors shape groups name hnex =>
      ensureGroup_new_color colors shape groups name hnex
  · exact fun colors groups hc hlen => getLeastUsedColor_min colors groups hc hlen
  · exact ⟨by decide, by decide⟩

/-- Closed instance of C7: get-or-create on an existing name is the
identity, a fresh group takes the least-used color, and the minimum /
first-in-order characterisation holds on concrete inputs. -/
theorem C7_witness :
    ((ensureGroup [("a", "A"), ("b", "B")] defaultShapeValue
        [Group.make "g" "A" defaultShapeValue "g"] "g").1 =
      [Group.make "g" "A" defaultShapeValue "g"]) ∧
    ((ensureGroup [("a", "A"), ("b", "B")] defaultShapeValue [] "g1").2.color =
      getLeastUsedColor [("a", "A"), ("b", "B")] []) ∧
    (∃ mv : Nat,
      (∀ c ∈ ([("a", "A"), ("b", "B")] : List (String × String)).map (·.2),
        mv ≤ ([] : List Group).countP fun g => decide (g.getColor = c)) ∧
      ((([("a", "A"), ("b", "B")] : List (String × String)).map (·.2)).find? fun c =>
          decide ((([] : List Group).countP fun g => decide (g.getColor = c)) = mv)) =
        some (getLeastUsedColor [("a", "A"), ("b", "B")] [])) :=
  ⟨(C7_ensureGroup_least_used_color.1 [("a", "A"), ("b", "B")] defaultShapeValue
      [Group.make "g" "A" defaultShapeValue "g"] "g"
      ⟨Group.make "g" "A" defaultShapeValue "g", by decide, by decide⟩).1,
   C7_ensureGroup_least_used_color.2.2.2.1 [("a", "A"), ("b", "B")] defaultShapeValue
      [] "g1" (by rintro ⟨g, hg, _⟩; exact absurd hg (List.not_mem_nil g)),
   C7_ensureGroup_least_used_color.2.2.2.2.1 [("a", "A"), ("b", "B")] []
      (by decide) (by decide)⟩

theorem activateGroup_attrs (s : MainState) (name : String)
    (hex : ∃ g ∈ s.groups, g.name = name) :
    (activateGroup s name).groups.map groupAttrs = s.groups.map groupAttrs ∧
    (activateGroup s name).activeGroup.name = name ∧
    (activateGroup s name).bookmarks = s.bookmarks ∧
    (activateGroup s name).hideInactiveGroups = s.hideInactiveGroups ∧
    (activateGroup s name).hideAll = s.hideAll := by
  obtain ⟨h1, _h2, h3⟩ := ensureGroup_existing s.colors s.defaultShape s.groups name hex
  simp only [activateGroup]
  by_cases heq : (ensureGroup s.colors s.defaultShape s.groups name).2 = s.activeGroup
  · rw [if_pos heq]
    refine ⟨?_, ?_, rfl, rfl, rfl⟩
    · dsimp only
      rw [h1]
    · dsimp only
      rw [← heq]
      exact h3
  · rw [if_neg heq]
    simp only [setGroupVisibilities]
    refine ⟨?_, ?_, ?_, ?_, ?_⟩
    · dsimp only
      rw [h1, List.map_map, List.map_map]
      refine List.map_congr_left fun g _ => ?_
      simp only [Function.comp_apply, groupAttrs]
      split_ifs <;> rfl
    · dsimp only
      exact h3
    · trivial
    · trivial
    · trivial

theorem bookmarkAttrs_roundTrip (pr pj : String → String → String)
    (ia : String → Bool) (ws : Option String) (getter : String → Group)
    (b : Bookmark) (hname : (getter b.group.name).name = b.group.name) :
    bookmarkAttrs (Bookmark.fromSerializableBookMark pj ia ws getter
        (SerializableBookmark.fromBookmark pr ws b)) =
      (roundTripPath pr pj ia ws b.fsPath, b.lineNumber, b.characterNumber,
        b.label, b.lineText, b.group.name) := by
  cases ws with
  | none =>
    simp only [bookmarkAttrs, Bookmark.fromSerializableBookMark,
      SerializableBookmark.fromBookmark, Bookmark.make, roundTripPath]
    rw [hname]
  | some w =>
    simp only [bookmarkAttrs, Bookmark.fromSerializableBookMark,
      SerializableBookmark.fromBookmark, Bookmark.make, roundTripPath]
    rw [hname]

/-- **C1 counterexample**: the sample state has one bookmark and save
writes the envelope, yet loading it back restores an empty bookmark list
(main.ts 202 passes the decoration factory where bookmark.ts 45-49
expects the group getter, so the loop throws and the catch at main.ts 207
leaves `this.bookmarks` empty), so the claimed equality of bookmark sets
fails. -/
theorem C1_counterexample :
    isEmpty sRoundTrip = false ∧
    saveState (fun _ p => p) (some "/w") sRoundTrip true false false 0 =
      SaveOutcome.wrote (saveEnvelope (fun _ p => p) (some "/w") sRoundTrip) ∧
    (loadStateFromEnvelope preRoundTrip
        (saveEnvelope (fun _ p => p) (some "/w") sRoundTrip)).map
      (fun s2 => s2.bookmarks) = some [] ∧
    sRoundTrip.bookmarks.length = 1 ∧
    ¬ (([] : List Bookmark).map bookmarkAttrs).Perm
      (sRoundTrip.bookmarks.map fun b =>
        (roundTripPath (fun _ p => p) (fun _ q => q) (fun _ => true)
            (some "/w") b.fsPath,
          b.lineNumber, b.characterNumber, b.label, b.lineText,
          b.group.name)) := by
  decide

/-- **C1 (amended)**: on a non-empty state, saving writes the serialized
envelope, and loading it back reproduces an equal multiset of groups
(their four persisted attributes), the same active group name and the
same hideInactiveGroups and hideAll flags — but an empty bookmark list:
bookmark reconstruction throws (main.ts 202 passes the decoration factory
as the group getter of bookmark.ts 45-49) and the catch at main.ts 207
leaves `this.bookmarks` empty. -/
theorem C1_round_trip_amended (pr : String → String → String)
    (ws : Option String) (s pre : MainState)
    (fileExists dirExists : Bool) (dirFileCount : Nat)
    (hne : isEmpty s = false)
    (hag : ∃ g ∈ s.groups, g.name = s.activeGroup.name) :
    saveState pr ws s true fileExists dirExists dirFileCount =
      SaveOutcome.wrote (saveEnvelope pr ws s) ∧
    ∃ s2, loadStateFromEnvelope pre (saveEnvelope pr ws s) = some s2 ∧
      (s2.groups.map groupAttrs).Perm (s.groups.map groupAttrs) ∧
      s2.bookmarks = [] ∧
      s2.activeGroup.name = s.activeGroup.name ∧
      s2.hideInactiveGroups = s.hideInactiveGroups ∧
      s2.hideAll = s.hideAll := by
  constructor
  · simp [saveState, hne]
  · obtain ⟨g0, hg0, hgn⟩ := hag
    set G1 : List Group :=
      jsSort (fun a b => decide (localeCompareInt a.name b.name ≤ 0))
        ((s.groups.map SerializableGroup.fromGroup).map Group.fromSerializableGroup)
      with hG1
    have hload : loadStateFromEnvelope pre (saveEnvelope pr ws s) =
        some (activateGroup
          { pre with
              groups := G1
              bookmarks := ([] : List Bookmark)
              hideInactiveGroups := s.hideInactiveGroups
              hideAll := s.hideAll }
          s.activeGroup.name) := rfl
    have hexG : ∃ g ∈ G1, g.name = s.activeGroup.name := by
      refine ⟨Group.fromSerializableGroup (SerializableGroup.fromGroup g0), ?_, hgn⟩
      rw [hG1]
      exact (jsSort_perm _ _).mem_iff.mpr (List.mem_map.mpr
        ⟨SerializableGroup.fromGroup g0, List.mem_map.mpr ⟨g0, hg0, rfl⟩, rfl⟩)
    have hattrs := activateGroup_attrs
      { pre with
          groups := G1
          bookmarks := ([] : List Bookmark)
          hideInactiveGroups := s.hideInactiveGroups
          hideAll := s.hideAll }
      s.activeGroup.name hexG
    refine ⟨_, hload, ?_, ?_, ?_, ?_, ?_⟩
    · rw [hattrs.1]
      show (G1.map groupAttrs).Perm (s.groups.map groupAttrs)
      rw [hG1]
      have hp := (jsSort_perm (fun a b => decide (localeCompareInt a.name b.name ≤ 0))
        ((s.groups.map SerializableGroup.fromGroup).map
          Group.fromSerializableGroup)).map groupAttrs
      have heq2 : ((s.groups.map SerializableGroup.fromGroup).map
          Group.fromSerializableGroup).map groupAttrs = s.groups.map groupAttrs := by
        rw [List.map_map, List.map_map]
        exact List.map_congr_left fun g _ => rfl
      exact heq2 ▸ hp
    · exact hattrs.2.2.1
    · exact hattrs.2.1
    · exact hattrs.2.2.2.1
    · exact hattrs.2.2.2.2

/-- Closed instance of the amended C1: the sample state is non-empty, and
save followed by load reproduces its groups, active group name and flags
while the bookmark list comes back empty. -/
theorem C1_witness :
    isEmpty sRoundTrip = false ∧
    (saveState (fun _ p => p) (some "/w") sRoundTrip true false false 0 =
      SaveOutcome.wrote (saveEnvelope (fun _ p => p) (some "/w") sRoundTrip) ∧
    ∃ s2, loadStateFromEnvelope preRoundTrip
        (saveEnvelope (fun _ p => p) (some "/w") sRoundTrip) = some s2 ∧
      (s2.groups.map groupAttrs).Perm (sRoundTrip.groups.map groupAttrs) ∧
      s2.bookmarks = [] ∧
      s2.activeGroup.name = sRoundTrip.activeGroup.name ∧
      s2.hideInactiveGroups = sRoundTrip.hideInactiveGroups ∧
      s2.hideAll = sRoundTrip.hideAll) :=
  ⟨by decide,
    C1_round_trip_amended (fun _ p => p) (some "/w") sRoundTrip preRoundTrip
      false false 0 (by decide)
      ⟨gDefSample, List.mem_singleton.mpr rfl, rfl⟩⟩

end LabeledBookmarks
